import Mathlib

/-!
A verification development for the Best Ball Blitz golf-pairing engine
(src/js/dataModel.js, src/js/appController.js and the UI tee-sheet module).
The JavaScript data model is shallowly embedded: numbers that the program
manipulates as IEEE doubles are modelled as exact rationals (the program only
ever parses decimal literals, sums, averages and compares them; no claim
depends on float rounding), the module-level mutable store becomes an explicit
`AppState` record threaded through the operations, and every call to
JavaScript's `Math.random()` becomes an explicit numeric parameter (the
program always uses `Math.floor(Math.random() * n)`, a uniform index below
`n`; the parameter `r` models that draw via `r % n`).
-/

namespace BBB

/-- A JavaScript string, modelled as its character sequence. -/
abbrev Str := List Char

/-- JavaScript's `String.prototype.trim`: strip whitespace from both ends. -/
def trimStr (s : Str) : Str :=
  ((s.dropWhile Char.isWhitespace).reverse.dropWhile Char.isWhitespace).reverse

/-- JavaScript's `String.prototype.split` with a single-character
separator: `"a,b" ↦ ["a","b"]`, `"" ↦ [""]`, `"," ↦ ["",""]`. -/
def splitOnCharAux (c : Char) : Str → Str → List Str
  | [], acc => [acc.reverse]
  | x :: t, acc =>
    if x = c then acc.reverse :: splitOnCharAux c t []
    else splitOnCharAux c t (x :: acc)

/-- Split a string on every occurrence of a character. -/
def splitOnChar (c : Char) (s : Str) : List Str :=
  splitOnCharAux c s []

/-- A registered player, as built by `addPlayer` / `processCSV` in
dataModel.js.  The derived `displayHandicap` string field of the source is a
pure rendering of `handicap` and `isPlus` and is not modelled. -/
structure Player where
  name : Str
  handicap : ℚ
  isPlus : Bool
deriving DecidableEq, Repr

/-- dataModel.js `getNumericHandicap`: the effective numeric handicap, with
plus handicaps negated. -/
def getNumericHandicap (p : Player) : ℚ :=
  if p.isPlus then -p.handicap else p.handicap

/-- Sum of the effective handicaps of a member list; dataModel.js
`calculateTeamHandicap` restricted to the non-null members. -/
def calcHandicap (ms : List Player) : ℚ :=
  (ms.map getNumericHandicap).sum

/-- dataModel.js `validatePlayerName`: the name must be nonempty after
trimming and contain a comma. -/
def validatePlayerName (name : Str) : Bool :=
  !(trimStr name).isEmpty && name.contains ','

/-- Remove the first occurrence of a character, modelling JavaScript's
`String.prototype.replace(c, "")` with a single-character pattern. -/
def removeFirst (c : Char) : List Char → List Char
  | [] => []
  | x :: t => if x = c then t else x :: removeFirst c t

/-- Numeric value of a list of decimal digit characters. -/
def digitsVal (ds : List Char) : Nat :=
  ds.foldl (fun acc c => 10 * acc + (c.toNat - '0'.toNat)) 0

/-- A model of JavaScript's `parseFloat` over the decimal-literal grammar:
skip leading whitespace, an optional sign, an integer part, an optional
fractional part (at least one digit must appear in the two parts together),
an optional exponent, and ignore any trailing garbage.  Returns `none` where
`parseFloat` returns `NaN`.  The special `Infinity` literal is also mapped to
`none`: it is rejected by `validateHandicap` in the source too (it exceeds
54), just with a different message, and no claim distinguishes the two. -/
def parseFloatQ (s : Str) : Option ℚ :=
  let cs := s.dropWhile (fun c => c.isWhitespace)
  let sign : Int := if cs.head? = some '-' then -1 else 1
  let cs1 := if cs.head? = some '-' || cs.head? = some '+' then cs.tail else cs
  let intDigits := cs1.takeWhile Char.isDigit
  let rest1 := cs1.dropWhile Char.isDigit
  let fracDigits :=
    if rest1.head? = some '.' then rest1.tail.takeWhile Char.isDigit else []
  let rest2 :=
    if rest1.head? = some '.' then rest1.tail.dropWhile Char.isDigit else rest1
  if intDigits = [] ∧ fracDigits = [] then none
  else
    let mant : Int :=
      (digitsVal intDigits : Int) * 10 ^ fracDigits.length + (digitsVal fracDigits : Int)
    let expVal : Int :=
      if rest2.head? = some 'e' || rest2.head? = some 'E' then
        let ecs := rest2.tail
        let esign : Int := if ecs.head? = some '-' then -1 else 1
        let ecs1 := if ecs.head? = some '-' || ecs.head? = some '+' then ecs.tail else ecs
        let eDigits := ecs1.takeWhile Char.isDigit
        if eDigits = [] then 0 else esign * (digitsVal eDigits : Int)
      else 0
    some (mkRat (sign * mant * 10 ^ expVal.toNat)
      (10 ^ fracDigits.length * 10 ^ (-expVal).toNat))

/-- dataModel.js `validateHandicap`: empty input fails; `isPlus` is whether a
plus sign occurs anywhere in the string; the first plus sign (if any) is
removed before parsing; a non-numeric value fails; a negative value without a
plus sign fails; a value above 54 fails.  On success returns the value and
the plus flag. -/
def validateHandicap (handicap : Str) : Option (ℚ × Bool) :=
  if (trimStr handicap).isEmpty then none
  else
    let isPlus := handicap.contains '+'
    let stripped := if isPlus then removeFirst '+' handicap else handicap
    match parseFloatQ stripped with
    | none => none
    | some v =>
      if v < 0 ∧ isPlus = false then none
      else if 54 < v then none
      else some (v, isPlus)

/-- dataModel.js `addPlayer` restricted to the player list it mutates:
validates the name and the handicap; on success appends the new player (with
the trimmed name) and returns it, on failure appends nothing. -/
def addPlayer (nameInput handicapInput : Str) (players : List Player) :
    Option Player × List Player :=
  if validatePlayerName nameInput then
    match validateHandicap handicapInput with
    | some (v, ip) =>
      let p : Player := { name := trimStr nameInput, handicap := v, isPlus := ip }
      (some p, players ++ [p])
    | none => (none, players)
  else (none, players)

/-- Split on newlines as the source's `csv.split(/\r\n|\n/)` does: a line
break is a bare LF or a CR immediately followed by LF; a CR anywhere else
stays in the line. -/
def splitLinesAux : List Char → List Char → List (List Char)
  | [], acc => [acc.reverse]
  | '\n' :: rest, acc =>
    (if acc.head? = some '\r' then acc.tail.reverse else acc.reverse) :: splitLinesAux rest []
  | c :: rest, acc => splitLinesAux rest (c :: acc)

/-- The lines of a CSV blob, in order. -/
def splitLines (s : Str) : List Str :=
  splitLinesAux s []

/-- Result of a CSV import: the players parsed from the valid lines, and the
1-based numbers of the lines that were rejected (the source collects message
strings mentioning these line numbers; only the line identity matters to the
claims and is kept). -/
structure CSVResult where
  players : List Player
  errors : List Nat
deriving DecidableEq, Repr

/-- One line of dataModel.js `processCSV` (0-based index `i`): blank lines
are skipped, a line with fewer than three comma-separated fields is an error,
a line whose third field fails `validateHandicap` is an error, and any other
line yields a player named "Last, First". -/
def processCSVLine (i : Nat) (line : Str) : Option (Option Player × Option Nat) :=
  if (trimStr line).isEmpty then none
  else
    let parts := splitOnChar ',' line
    if parts.length < 3 then some (none, some (i + 1))
    else
      let lastName := trimStr (parts.getD 0 [])
      let firstName := trimStr (parts.getD 1 [])
      let handicapInput := trimStr (parts.getD 2 [])
      match validateHandicap handicapInput with
      | none => some (none, some (i + 1))
      | some (v, ip) =>
        some (some { name := lastName ++ [',', ' '] ++ firstName, handicap := v, isPlus := ip },
          none)

/-- The loop of dataModel.js `processCSV` over the numbered lines. -/
def processCSVAux : Nat → List Str → CSVResult
  | _, [] => ⟨[], []⟩
  | i, line :: rest =>
    let r := processCSVAux (i + 1) rest
    match processCSVLine i line with
    | none => r
    | some (some p, _) => ⟨p :: r.players, r.errors⟩
    | some (none, some e) => ⟨r.players, e :: r.errors⟩
    | some (none, none) => r

/-- dataModel.js `processCSV`: parse every line, collecting players from the
valid lines and errors from the bad ones (partial results, no early exit). -/
def processCSV (csv : Str) : CSVResult :=
  processCSVAux 0 (splitLines csv)

/-- The four handicap groups of the data store. -/
structure Groups where
  A : List Player
  B : List Player
  C : List Player
  D : List Player
deriving DecidableEq, Repr

/-- The groups of a freshly reset store. -/
def emptyGroups : Groups := ⟨[], [], [], []⟩

/-- A formed team, as committed to the store's team list. -/
structure Team where
  id : Nat
  members : List Player
  totalHandicap : ℚ
deriving DecidableEq, Repr

/-- The two tee-sheet start formats. -/
inductive StartFormat where
  | sequential
  | shotgun
deriving DecidableEq, Repr

/-- The store's settings.  `startTime` is the start of play in minutes after
midnight (the source keeps an "HH:MM" string and turns it into a Date);
`timeInterval` is in minutes. -/
structure Settings where
  balanceTeams : Bool
  maxHandicapDiff : ℚ
  startFormat : StartFormat
  startTime : Nat
  timeInterval : Nat
deriving DecidableEq, Repr

/-- One drafted team's in-progress data: the four member slots in A,B,C,D
order (filled D first by the round mapping) and the running handicap sum. -/
structure DraftTeamData where
  members : List (Option Player)
  partialHandicap : ℚ
deriving DecidableEq, Repr

/-- The group letters, used as the draft's round labels. -/
inductive GLetter where
  | A
  | B
  | C
  | D
deriving DecidableEq, Repr

/-- The draft's fixed round order D, C, B, A. -/
def draftOrder : List GLetter := [GLetter.D, GLetter.C, GLetter.B, GLetter.A]

/-- The transient interactive-draft state (dataModel.js
`_data.interactiveDraftState`), with the four snapshot pools as fields. -/
structure DraftState where
  numTeams : Nat
  currentTeamIndex : Nat
  currentRoundIndex : Nat
  availableA : List Player
  availableB : List Player
  availableC : List Player
  availableD : List Player
  draftedTeamsData : List DraftTeamData
  targetTeamHandicap : ℚ
  avgPlayerHandicap : ℚ
deriving DecidableEq, Repr

/-- The snapshot pool for a group letter. -/
def DraftState.avail (s : DraftState) : GLetter → List Player
  | GLetter.A => s.availableA
  | GLetter.B => s.availableB
  | GLetter.C => s.availableC
  | GLetter.D => s.availableD

/-- Replace the snapshot pool for a group letter. -/
def DraftState.setAvail (s : DraftState) : GLetter → List Player → DraftState
  | GLetter.A, l => { s with availableA := l }
  | GLetter.B, l => { s with availableB := l }
  | GLetter.C, l => { s with availableC := l }
  | GLetter.D, l => { s with availableD := l }

/-- The module-level mutable store `_data` of dataModel.js, made explicit.
`holeAssignments` maps a hole number to the list of team ids on it; a hole
absent from the source's object is a hole mapped to `[]` here (the source
deletes a key exactly when its list becomes empty). -/
structure AppState where
  players : List Player
  groups : Groups
  teams : List Team
  holeAssignments : Nat → List Nat
  settings : Settings
  interactiveDraftState : Option DraftState

/-- The comparison the source passes to `Array.prototype.sort` when grouping:
ascending effective handicap.  ECMAScript's sort is specified to be stable,
so, the comparator being consistent, its output is the unique stable
ascending reordering; `List.insertionSort` computes exactly that. -/
def handicapLE (a b : Player) : Prop :=
  getNumericHandicap a ≤ getNumericHandicap b

instance : DecidableRel handicapLE := fun a b =>
  inferInstanceAs (Decidable (getNumericHandicap a ≤ getNumericHandicap b))

instance : IsTotal Player handicapLE :=
  ⟨fun a b => le_total (getNumericHandicap a) (getNumericHandicap b)⟩

instance : IsTrans Player handicapLE :=
  ⟨fun _ _ _ hab hbc => le_trans hab hbc⟩

/-- The stable ascending-handicap sort of the player registry. -/
def sortPlayers (ps : List Player) : List Player :=
  ps.insertionSort handicapLE

/-- The quartile size `Math.ceil(players.length / 4)` of `groupPlayers`. -/
def quarterSize (n : Nat) : Nat := (n + 3) / 4

/-- dataModel.js `groupPlayers`: with fewer than 4 players fail and change
nothing; otherwise sort by effective handicap, cut the four contiguous
quartile slices, and reset the draft state.  Returns the new state and the
success flag. -/
def groupPlayers (st : AppState) : AppState × Bool :=
  if st.players.length < 4 then (st, false)
  else
    let sorted := sortPlayers st.players
    let q := quarterSize st.players.length
    let gs : Groups :=
      { A := (sorted.drop 0).take q
        B := (sorted.drop q).take q
        C := (sorted.drop (q * 2)).take q
        D := sorted.drop (q * 3) }
    ({ st with groups := gs, interactiveDraftState := none }, true)

/-- dataModel.js `canFormTeam`: every group holds at least one player. -/
def canFormTeam (st : AppState) : Bool :=
  decide (0 < st.groups.A.length) && decide (0 < st.groups.B.length) &&
    decide (0 < st.groups.C.length) && decide (0 < st.groups.D.length)

/-- The initial value of the dataModel.js store `_data` (start time "08:00"
is 480 minutes after midnight). -/
def initialState : AppState :=
  { players := []
    groups := emptyGroups
    teams := []
    holeAssignments := fun _ => []
    settings :=
      { balanceTeams := false, maxHandicapDiff := 5, startFormat := StartFormat.sequential,
        startTime := 480, timeInterval := 10 }
    interactiveDraftState := none }

/-- appController.js `processCSVHandler`: run `processCSV`; when ANY line
error was collected, show the first error and return without importing
anything; otherwise append all imported players to the registry and, if the
players were already grouped, reset the groups and teams. -/
def processCSVHandler (csv : Str) (isGrouped : Bool) (st : AppState) : AppState :=
  let result := processCSV csv
  if 0 < result.errors.length then st
  else
    let st1 := { st with players := st.players ++ result.players }
    if isGrouped then { st1 with groups := emptyGroups, teams := [] } else st1

/-- The fixed set of double-stacked holes of dataModel.js. -/
def doubleStackedHoles : List Nat := [3, 4, 6, 7, 8, 10, 12, 13, 16, 18]

/-- The hole-assignment map of an empty tee sheet. -/
def emptyAssignments : Nat → List Nat := fun _ => []

/-- The holes 1..18 in iteration order. -/
def allHoles : List Nat := List.range' 1 18

/-- Whether a team id occurs on some hole.  The source walks the keys of the
assignment object; under the documented operations those keys are exactly the
holes 1..18 with a nonempty list, so walking all of 1..18 is the same test. -/
def isAssignedAnywhere (a : Nat → List Nat) (teamId : Nat) : Bool :=
  allHoles.any (fun h => (a h).contains teamId)

/-- dataModel.js `assignTeamToHole`: reject a zero (falsy) team id or a hole
outside 1..18, a team already assigned anywhere, and a full hole (capacity 2
on a double-stacked hole, 1 elsewhere); otherwise append the id to the
hole's list.  Returns the success flag and the (possibly unchanged) map. -/
def assignTeamToHole (teamId hole : Nat) (a : Nat → List Nat) :
    Bool × (Nat → List Nat) :=
  if teamId = 0 ∨ hole < 1 ∨ 18 < hole then (false, a)
  else
    let teamsOnHole := a hole
    let maxTeams := if hole ∈ doubleStackedHoles then 2 else 1
    if isAssignedAnywhere a teamId then (false, a)
    else if maxTeams ≤ teamsOnHole.length then (false, a)
    else (true, fun h => if h = hole then teamsOnHole ++ [teamId] else a h)

/-- dataModel.js `removeTeamFromHole`: reject a zero team id, a hole outside
1..18, or a team not on that hole; otherwise filter the id out of the hole's
list (the source deletes the key when the list empties, which the
`[]`-valued map already represents). -/
def removeTeamFromHole (teamId hole : Nat) (a : Nat → List Nat) :
    Bool × (Nat → List Nat) :=
  if teamId = 0 ∨ hole < 1 ∨ 18 < hole then (false, a)
  else if !(a hole).contains teamId then (false, a)
  else (true, fun h => if h = hole then (a hole).filter (fun i => i ≠ teamId) else a h)

/-- dataModel.js `getUnassignedTeamsInternal`: the teams whose id is on no
hole, in team-list order. -/
def getUnassignedTeams (teams : List Team) (a : Nat → List Nat) : List Team :=
  teams.filter (fun t => !isAssignedAnywhere a t.id)

/-- The first pass shared by `autoAssignTeams` and
`randomizeTeamAssignments`: walk the holes in order, and at each hole try to
assign the next pending team id; on success move to the next id, on failure
keep it for the next hole.  Returns the map and the ids still pending. -/
def passOne (a : Nat → List Nat) (ts : List Nat) (holes : List Nat) :
    (Nat → List Nat) × List Nat :=
  match holes, ts with
  | [], ts => (a, ts)
  | _, [] => (a, [])
  | h :: hs, t :: ts =>
    let r := assignTeamToHole t h a
    if r.1 then passOne r.2 ts hs else passOne r.2 (t :: ts) hs

/-- The second pass: walk the holes again, and on each double-stacked hole
still below two teams try to assign the next pending id. -/
def passTwo (a : Nat → List Nat) (ts : List Nat) (holes : List Nat) :
    (Nat → List Nat) × List Nat :=
  match holes, ts with
  | [], ts => (a, ts)
  | _, [] => (a, [])
  | h :: hs, t :: ts =>
    if h ∈ doubleStackedHoles ∧ (a h).length < 2 then
      let r := assignTeamToHole t h a
      if r.1 then passTwo r.2 ts hs else passTwo r.2 (t :: ts) hs
    else passTwo a (t :: ts) hs

/-- dataModel.js `autoAssignTeams`: clear every assignment, take the (now
all-unassigned) teams in list order, and run the two passes over holes
1..18. -/
def autoAssignTeams (teams : List Team) (_a : Nat → List Nat) : Nat → List Nat :=
  let cleared := emptyAssignments
  let ts := (getUnassignedTeams teams cleared).map Team.id
  let p1 := passOne cleared ts allHoles
  (passTwo p1.1 p1.2 allHoles).1

/-- Swap two positions of a list, leaving it unchanged when either index is
out of range; the array element swap of the source's Fisher-Yates loop. -/
def swapIdx (l : List α) (i j : Nat) : List α :=
  match l.get? i, l.get? j with
  | some x, some y => (l.set i y).set j x
  | _, _ => l

/-- The Fisher-Yates loop of `randomizeTeamAssignments`, from position `i`
down to 1; `cs.headD 0 % (i + 1)` models the uniform draw
`Math.floor(Math.random() * (i + 1))` at position `i`. -/
def fyAux : List α → Nat → List Nat → List α
  | l, 0, _ => l
  | l, i + 1, cs => fyAux (swapIdx l (i + 1) (cs.headD 0 % (i + 2))) i cs.tail

/-- The Fisher-Yates shuffle of the source, with the random draws passed in
as `cs`. -/
def fyShuffle (cs : List Nat) (l : List α) : List α :=
  fyAux l (l.length - 1) cs

/-- dataModel.js `randomizeTeamAssignments`: clear every assignment, shuffle
the teams, and run the same two passes over holes 1..18. -/
def randomizeTeamAssignments (cs : List Nat) (teams : List Team)
    (_a : Nat → List Nat) : Nat → List Nat :=
  let cleared := emptyAssignments
  let shuffled := fyShuffle cs (getUnassignedTeams teams cleared)
  let ts := shuffled.map Team.id
  let p1 := passOne cleared ts allHoles
  (passTwo p1.1 p1.2 allHoles).1

/-- dataModel.js `initializeInteractiveDraft`: `numTeams` is the least group
size and must be positive; the four groups are snapshotted into pools; the
balancing targets default to 0 and, when balancing is on, become the average
player handicap and four times it, the target then overridden by the average
total of the existing teams when any exist. -/
def initializeInteractiveDraft (st : AppState) : AppState × Bool :=
  let g := st.groups
  let numTeams := min (min g.A.length g.B.length) (min g.C.length g.D.length)
  if numTeams = 0 then (st, false)
  else
    let base : DraftState :=
      { numTeams := numTeams
        currentTeamIndex := 0
        currentRoundIndex := 0
        availableA := g.A
        availableB := g.B
        availableC := g.C
        availableD := g.D
        draftedTeamsData :=
          List.replicate numTeams { members := [none, none, none, none], partialHandicap := 0 }
        targetTeamHandicap := 0
        avgPlayerHandicap := 0 }
    let ds :=
      if st.settings.balanceTeams then
        let ds1 :=
          if 0 < st.players.length then
            let avg := calcHandicap st.players / (st.players.length : ℚ)
            { base with avgPlayerHandicap := avg, targetTeamHandicap := avg * 4 }
          else base
        if 0 < st.teams.length then
          let total := (st.teams.map (fun t => calcHandicap t.members)).sum
          { ds1 with targetTeamHandicap := total / (st.teams.length : ℚ) }
        else ds1
      else base
    ({ st with interactiveDraftState := some ds }, true)

/-- The balancing loop of `makeInteractiveDraftPick`: scan the pool from
position `j` carrying the best (index, difference) so far, replacing it only
on a strictly smaller difference, so the first minimiser wins.  The source
starts from `minDifference = Infinity`, modelled by the `none` start. -/
def bestAux (partialH avg target : ℚ) (remRounds : Nat) :
    List Player → Nat → Option (Nat × ℚ) → Option (Nat × ℚ)
  | [], _, best => best
  | p :: rest, j, best =>
    let d := |partialH + getNumericHandicap p + (remRounds : ℚ) * avg - target|
    match best with
    | none => bestAux partialH avg target remRounds rest (j + 1) (some (j, d))
    | some (bj, bd) =>
      if d < bd then bestAux partialH avg target remRounds rest (j + 1) (some (j, d))
      else bestAux partialH avg target remRounds rest (j + 1) (some (bj, bd))

/-- The quantity the balancing pick minimises for a candidate: the distance
of the predicted final team handicap (running sum, plus the candidate, plus
the average player handicap for each remaining round) from the target. -/
def pickDiff (s : DraftState) (dtd : DraftTeamData) (p : Player) : ℚ :=
  |dtd.partialHandicap + getNumericHandicap p +
    ((draftOrder.length - (s.currentRoundIndex + 1) : Nat) : ℚ) * s.avgPlayerHandicap -
    s.targetTeamHandicap|

/-- What a successful `makeInteractiveDraftPick` reports. -/
structure PickInfo where
  player : Player
  teamIndex : Nat
  groupLetter : GLetter
  isDraftComplete : Bool
deriving DecidableEq, Repr

/-- dataModel.js `makeInteractiveDraftPick`, with the uniform draw
`Math.floor(Math.random() * pool.length)` modelled by `r % pool.length`.
Fails without touching the state when no draft is initialized or the current
pool is empty.  The two `none` fallthrough branches of the matches are dead
code mirroring array accesses the source performs only at in-range indices
(on a finished draft the source would throw before mutating anything, which
the failure result also models).  The chosen player fills member slot
`3 - roundIndex` (A..D order), the pool loses it, and the cursors advance
team-first, round on wraparound. -/
def makeInteractiveDraftPick (r : Nat) (st : AppState) : AppState × Option PickInfo :=
  match st.interactiveDraftState with
  | none => (st, none)
  | some s =>
    match draftOrder.get? s.currentRoundIndex, s.draftedTeamsData.get? s.currentTeamIndex with
    | some g, some dtd =>
      let pool := s.avail g
      if pool.length = 0 then (st, none)
      else
        let chosenIdx :=
          if st.settings.balanceTeams = true ∧ g ≠ GLetter.D then
            let remRounds := draftOrder.length - (s.currentRoundIndex + 1)
            match bestAux dtd.partialHandicap s.avgPlayerHandicap s.targetTeamHandicap
                remRounds pool 0 none with
            | some (j, _) => j
            | none => r % pool.length
          else r % pool.length
        match pool.get? chosenIdx with
        | none => (st, none)
        | some chosen =>
          let memberIndex := draftOrder.length - 1 - s.currentRoundIndex
          let dtd2 : DraftTeamData :=
            { members := dtd.members.set memberIndex (some chosen)
              partialHandicap := dtd.partialHandicap + getNumericHandicap chosen }
          let s1 := s.setAvail g (pool.eraseIdx chosenIdx)
          let s2 := { s1 with draftedTeamsData := s1.draftedTeamsData.set s.currentTeamIndex dtd2 }
          let s3 :=
            if s.numTeams ≤ s.currentTeamIndex + 1 then
              { s2 with currentTeamIndex := 0, currentRoundIndex := s.currentRoundIndex + 1 }
            else { s2 with currentTeamIndex := s.currentTeamIndex + 1 }
          ({ st with interactiveDraftState := some s3 },
            some { player := chosen, teamIndex := s.currentTeamIndex, groupLetter := g,
                   isDraftComplete := decide (draftOrder.length ≤ s3.currentRoundIndex) })
    | _, _ => (st, none)

/-- The member slots of a drafted team when all four are filled. -/
def allSome : List (Option α) → Option (List α)
  | [] => some []
  | some x :: t => (allSome t).map (fun l => x :: l)
  | none :: _ => none

/-- The removal loop of `finalizeDraftedTeams`: find the first group (in key
order A, B, C, D) containing the player and splice out its first occurrence
there. -/
def removePlayerFromGroups (g : Groups) (p : Player) : Groups :=
  if p ∈ g.A then { g with A := g.A.erase p }
  else if p ∈ g.B then { g with B := g.B.erase p }
  else if p ∈ g.C then { g with C := g.C.erase p }
  else if p ∈ g.D then { g with D := g.D.erase p }
  else g

/-- One iteration of the `finalizeDraftedTeams` loop over the drafted teams:
a full team becomes a committed team whose id continues the count, and its
members leave the live groups; an incomplete team is only logged and
skipped. -/
def finalizeStep (baseCount : Nat) (acc : List Team × Groups) (d : DraftTeamData) :
    List Team × Groups :=
  match allSome d.members with
  | some ms =>
    let newTeam : Team :=
      { id := baseCount + acc.1.length + 1, members := ms, totalHandicap := calcHandicap ms }
    (acc.1 ++ [newTeam], ms.foldl removePlayerFromGroups acc.2)
  | none => acc

/-- dataModel.js `finalizeDraftedTeams`: fails (touching nothing) when no
draft exists or rounds remain; otherwise commits every full drafted team,
removes their members from the live groups, discards the draft state, and
reports how many teams were added. -/
def finalizeDraftedTeams (st : AppState) : AppState × Option Nat :=
  match st.interactiveDraftState with
  | none => (st, none)
  | some s =>
    if s.currentRoundIndex < draftOrder.length then (st, none)
    else
      let r := s.draftedTeamsData.foldl (finalizeStep st.teams.length) ([], st.groups)
      ({ st with teams := st.teams ++ r.1, groups := r.2, interactiveDraftState := none },
        some r.1.length)

/-- Run a list of draft picks with the given random draws, failing as soon as
one pick fails. -/
def runPicks (rs : List Nat) (st : AppState) : Option AppState :=
  match rs with
  | [] => some st
  | r :: rest =>
    let p := makeInteractiveDraftPick r st
    match p.2 with
    | some _ => runPicks rest p.1
    | none => none

/-- dataModel.js `findTeamById`. -/
def findTeamById (teams : List Team) (teamId : Nat) : Option Team :=
  teams.find? (fun t => t.id = teamId)

/-- A data row of the tee sheet built by the UI module's `updateTeeSheet`.
The source displays the time as the zero-padded string "HH:MM" of a Date;
`teeTime` here is the displayed time as minutes of the day (hours times 60
plus minutes, after the day wraps), and comparing two such values with `<`
is exactly the lexicographic comparison of the displayed strings.  The
rendered member-name cells are presentation only and are not modelled. -/
structure TeeRow where
  hole : Nat
  teeTime : Nat
  teamId : Nat
deriving DecidableEq, Repr

/-- The hole-slot pairs in iteration order: holes 1..18, each hole's team
ids in list order. -/
def holeSlotPairs (a : Nat → List Nat) : List (Nat × Nat) :=
  allHoles.flatMap (fun h => (a h).map (fun t => (h, t)))

/-- The row-building loop of `updateTeeSheet`: ids without a matching team
are skipped; under shotgun every row shows the start time; under sequential
a row shows the start time offset by the running count of already timed
rows times the interval, and only then is the count advanced. -/
def buildRows (teams : List Team) (fmt : StartFormat) (start interval : Nat) :
    List (Nat × Nat) → Nat → List TeeRow
  | [], _ => []
  | (h, tid) :: rest, count =>
    match findTeamById teams tid with
    | none => buildRows teams fmt start interval rest count
    | some T =>
      match fmt with
      | StartFormat.shotgun =>
        { hole := h, teeTime := start % 1440, teamId := T.id } ::
          buildRows teams fmt start interval rest count
      | StartFormat.sequential =>
        { hole := h, teeTime := (start + count * interval) % 1440, teamId := T.id } ::
          buildRows teams fmt start interval rest (count + 1)

/-- The sequential-format display order: by displayed time, ties by hole
number (the source compares the "HH:MM" strings, which agrees with `<` on
the minute values, then takes `a.hole - b.hole`). -/
def seqLE (x y : TeeRow) : Prop :=
  x.teeTime < y.teeTime ∨ (x.teeTime = y.teeTime ∧ x.hole ≤ y.hole)

instance : DecidableRel seqLE := fun x y =>
  inferInstanceAs (Decidable (x.teeTime < y.teeTime ∨ (x.teeTime = y.teeTime ∧ x.hole ≤ y.hole)))

instance : IsTotal TeeRow seqLE := by
  refine ⟨fun a b => ?_⟩
  rcases Nat.lt_trichotomy a.teeTime b.teeTime with h | h | h
  · exact Or.inl (Or.inl h)
  · rcases Nat.le_total a.hole b.hole with h2 | h2
    · exact Or.inl (Or.inr ⟨h, h2⟩)
    · exact Or.inr (Or.inr ⟨h.symm, h2⟩)
  · exact Or.inr (Or.inl h)

instance : IsTrans TeeRow seqLE := by
  refine ⟨fun a b c hab hbc => ?_⟩
  rcases hab with h1 | ⟨e1, h1⟩
  · rcases hbc with h2 | ⟨e2, _⟩
    · exact Or.inl (h1.trans h2)
    · exact Or.inl (e2 ▸ h1)
  · rcases hbc with h2 | ⟨e2, h2⟩
    · exact Or.inl (e1 ▸ h2)
    · exact Or.inr ⟨e1.trans e2, h1.trans h2⟩

/-- The shotgun-format display order: by hole number only. -/
def holeLE (x y : TeeRow) : Prop := x.hole ≤ y.hole

instance : DecidableRel holeLE := fun x y =>
  inferInstanceAs (Decidable (x.hole ≤ y.hole))

instance : IsTotal TeeRow holeLE := ⟨fun a b => Nat.le_total a.hole b.hole⟩

instance : IsTrans TeeRow holeLE := ⟨fun _ _ _ h1 h2 => Nat.le_trans h1 h2⟩

/-- The tee-sheet projection of uiController's `updateTeeSheet`: a pure
reading of the assignments, teams and settings.  With no teams the source
renders only a placeholder row, here the empty list.  Rows are built in
hole-iteration order and then stably sorted: sequentially by (time, hole),
shotgun by hole (the source's `Array.prototype.sort` is stable and
`List.insertionSort` is the stable sort for these total preorders). -/
def updateTeeSheet (st : AppState) : List TeeRow :=
  if st.teams.length = 0 then []
  else
    let rows := buildRows st.teams st.settings.startFormat st.settings.startTime
      st.settings.timeInterval (holeSlotPairs st.holeAssignments) 0
    match st.settings.startFormat with
    | StartFormat.sequential => rows.insertionSort seqLE
    | StartFormat.shotgun => rows.insertionSort holeLE

/-- The group letter drawn from in draft round `p` (the draft order D, C,
B, A; out-of-range rounds never occur). -/
def letterOfRound : Nat → GLetter
  | 0 => GLetter.D
  | 1 => GLetter.C
  | 2 => GLetter.B
  | _ => GLetter.A

/-- The player list of a group letter. -/
def Groups.ofLetter (G : Groups) : GLetter → List Player
  | GLetter.A => G.A
  | GLetter.B => G.B
  | GLetter.C => G.C
  | GLetter.D => G.D

/-- How many round-`p` picks have happened when the cursors sit at round
`q`, team `t`, out of `N` teams. -/
def pickedCount (N q t p : Nat) : Nat :=
  if p < q then N else if p = q then t else 0

/-- The member-slot entry of the drafted team at index `i`: `none` when the
index is out of range, `some v` for slot value `v`. -/
def slotAt (data : List DraftTeamData) (slot i : Nat) : Option (Option Player) :=
  match data.get? i with
  | some d => d.members.get? slot
  | none => none

/-- The players filled into a slot among the first `c` drafted teams, in
team order. -/
def slotMembersIdx (data : List DraftTeamData) (slot : Nat) : Nat → List Player
  | 0 => []
  | c + 1 =>
    slotMembersIdx data slot c ++
      (match slotAt data slot c with
       | some (some pl) => [pl]
       | _ => [])

/-- The players filled into a slot across a drafted-team list. -/
def memsAt (ds : List DraftTeamData) (slot : Nat) : List Player :=
  ds.filterMap (fun d => (d.members.get? slot).getD none)

/-- The teams `finalizeDraftedTeams` commits from a drafted-team list,
ids continuing from `base`. -/
def specTeams (base : Nat) : List DraftTeamData → List Team
  | [] => []
  | d :: rest =>
    match allSome d.members with
    | some ms =>
      { id := base + 1, members := ms, totalHandicap := calcHandicap ms } ::
        specTeams (base + 1) rest
    | none => specTeams base rest

/-- The in-progress draft invariant relative to the groups `G` snapshotted
at initialization and the team count `N`: the cursors are in range (or at
the completed position), every drafted team has four member slots, the
teams already picked in a round have that round's slot filled and the
others still empty, and the filled players of each round together with the
round's remaining pool are a permutation of the round's group. -/
def DraftInv (G : Groups) (N : Nat) (s : DraftState) : Prop :=
  s.numTeams = N ∧
  s.draftedTeamsData.length = N ∧
  ((s.currentRoundIndex < 4 ∧ s.currentTeamIndex < N) ∨
    (s.currentRoundIndex = 4 ∧ s.currentTeamIndex = 0)) ∧
  (∀ d ∈ s.draftedTeamsData, d.members.length = 4) ∧
  (∀ p, p < 4 →
    (∀ i, i < pickedCount N s.currentRoundIndex s.currentTeamIndex p →
      ∃ pl, slotAt s.draftedTeamsData (3 - p) i = some (some pl)) ∧
    (∀ i, pickedCount N s.currentRoundIndex s.currentTeamIndex p ≤ i → i < N →
      slotAt s.draftedTeamsData (3 - p) i = some none) ∧
    List.Perm
      (slotMembersIdx s.draftedTeamsData (3 - p)
        (pickedCount N s.currentRoundIndex s.currentTeamIndex p) ++
        s.avail (letterOfRound p))
      (G.ofLetter (letterOfRound p)))

/-- The CSV scenario input "A,B,10\nC,D,bad\n" of the specification. -/
def csvSample : Str :=
  ['A', ',', 'B', ',', '1', '0', '\n', 'C', ',', 'D', ',', 'b', 'a', 'd', '\n']

/-- The store of the C9 counterexample: four ungrouped players and one
already-formed team. -/
def c9state : AppState :=
  { initialState with
    players :=
      [{ name := ['S'], handicap := 10, isPlus := false },
       { name := ['D'], handicap := 5, isPlus := false },
       { name := ['L'], handicap := 20, isPlus := false },
       { name := ['N'], handicap := 2, isPlus := true }]
    teams := [{ id := 1, members := [], totalHandicap := 0 }] }

/-- The hole-assignment invariant of the specification: a team id sits on at
most one hole, a double-stacked hole carries at most two ids, any other hole
at most one, and (well-formedness maintained by every operation) holes
outside 1..18 are empty. -/
def AssignInv (a : Nat → List Nat) : Prop :=
  (∀ t h1 h2, t ∈ a h1 → t ∈ a h2 → h1 = h2) ∧
  (∀ h, h ∈ doubleStackedHoles → (a h).length ≤ 2) ∧
  (∀ h, h ∉ doubleStackedHoles → (a h).length ≤ 1) ∧
  (∀ h, h < 1 ∨ 18 < h → a h = [])

/-- The hole-assignment maps reachable through the documented operations,
starting from the empty sheet. -/
inductive ReachableAssign : (Nat → List Nat) → Prop where
  | init : ReachableAssign emptyAssignments
  | assign (t h : Nat) {a : Nat → List Nat} :
      ReachableAssign a → ReachableAssign (assignTeamToHole t h a).2
  | remove (t h : Nat) {a : Nat → List Nat} :
      ReachableAssign a → ReachableAssign (removeTeamFromHole t h a).2
  | auto (teams : List Team) {a : Nat → List Nat} :
      ReachableAssign a → ReachableAssign (autoAssignTeams teams a)
  | rand (cs : List Nat) (teams : List Team) {a : Nat → List Nat} :
      ReachableAssign a → ReachableAssign (randomizeTeamAssignments cs teams a)

/-- All team ids on the sheet, in hole order. -/
def assignedList (a : Nat → List Nat) : List Nat :=
  (allHoles.map a).flatten

/-- A one-team draft in progress, used to witness the pick rule. -/
def c3draft : DraftState :=
  { numTeams := 1
    currentTeamIndex := 0
    currentRoundIndex := 0
    availableA := [{ name := ['a'], handicap := 1, isPlus := false }]
    availableB := [{ name := ['b'], handicap := 2, isPlus := false }]
    availableC := [{ name := ['c'], handicap := 3, isPlus := false }]
    availableD := [{ name := ['d'], handicap := 4, isPlus := false }]
    draftedTeamsData := [{ members := [none, none, none, none], partialHandicap := 0 }]
    targetTeamHandicap := 0
    avgPlayerHandicap := 0 }

/-- The store of the C3 witness. -/
def c3state : AppState := { initialState with interactiveDraftState := some c3draft }

/-- A registry of one player per group, used to witness the draft flow. -/
def c2state : AppState :=
  { initialState with groups :=
    { A := [{ name := ['a'], handicap := 1, isPlus := false }]
      B := [{ name := ['b'], handicap := 2, isPlus := false }]
      C := [{ name := ['c'], handicap := 3, isPlus := false }]
      D := [{ name := ['d'], handicap := 4, isPlus := false }] } }

/-! ## Theorems -/

/-- `validateHandicap` with its let-bindings unfolded. -/
theorem validateHandicap_eq (handicap : Str) :
    validateHandicap handicap =
      (if (trimStr handicap).isEmpty then none
       else
        match parseFloatQ
            (if handicap.contains '+' then removeFirst '+' handicap else handicap) with
        | none => none
        | some v =>
          if v < 0 ∧ handicap.contains '+' = false then none
          else if 54 < v then none
          else some (v, handicap.contains '+')) := rfl

/-- `addPlayer` fails whenever the handicap fails validation. -/
theorem addPlayer_of_validate_none {name handicap : Str} {players : List Player}
    (h : validateHandicap handicap = none) :
    addPlayer name handicap players = (none, players) := by
  unfold addPlayer
  rw [h]
  split <;> rfl

/-- C6 (amended).  `addPlayer` appends nothing when the name lacks a comma,
when the plus-stripped handicap does not parse as a number, when the parsed
value is negative and no plus sign occurs anywhere in the input, or when the
value exceeds 54; every player it appends has `handicapValue ≤ 54`, has
`handicapValue ≥ 0` whenever the input carries no plus sign (a plus sign
elsewhere in the string, e.g. "+-3", admits a negative value), has
`isPlus` exactly when the input contains a plus sign, and has effective
handicap `isPlus ? -handicapValue : handicapValue`. -/
theorem c6_addPlayer_validation (name handicap : Str) (players : List Player) :
    (name.contains ',' = false → addPlayer name handicap players = (none, players)) ∧
    (parseFloatQ (if handicap.contains '+' then removeFirst '+' handicap else handicap) = none →
      addPlayer name handicap players = (none, players)) ∧
    (∀ v : ℚ,
      parseFloatQ (if handicap.contains '+' then removeFirst '+' handicap else handicap) = some v →
      v < 0 → handicap.contains '+' = false → addPlayer name handicap players = (none, players)) ∧
    (∀ v : ℚ,
      parseFloatQ (if handicap.contains '+' then removeFirst '+' handicap else handicap) = some v →
      54 < v → addPlayer name handicap players = (none, players)) ∧
    (∀ p : Player, (addPlayer name handicap players).1 = some p →
      (addPlayer name handicap players).2 = players ++ [p] ∧
      p.handicap ≤ 54 ∧
      (handicap.contains '+' = false → 0 ≤ p.handicap) ∧
      p.isPlus = handicap.contains '+' ∧
      getNumericHandicap p = (if p.isPlus then -p.handicap else p.handicap)) := by
  refine ⟨?_, ?_, ?_, ?_, ?_⟩
  · intro h
    unfold addPlayer validatePlayerName
    rw [h]
    simp
  · intro h
    refine addPlayer_of_validate_none ?_
    rw [validateHandicap_eq]
    split
    · rfl
    · rw [h]
  · intro v hv hneg hplus
    refine addPlayer_of_validate_none ?_
    rw [validateHandicap_eq]
    split
    · rfl
    · simp only [hv]
      rw [if_pos ⟨hneg, hplus⟩]
  · intro v hv h54
    refine addPlayer_of_validate_none ?_
    rw [validateHandicap_eq]
    split
    · rfl
    · simp only [hv]
      simp [h54]
  · intro p hp
    rcases hvn : validatePlayerName name with _ | _
    · unfold addPlayer at hp
      rw [hvn] at hp
      simp at hp
    · rcases hvh : validateHandicap handicap with _ | ⟨v, ip⟩
      · rw [addPlayer_of_validate_none hvh] at hp
        simp at hp
      · have hres : addPlayer name handicap players =
            (some { name := trimStr name, handicap := v, isPlus := ip },
              players ++ [{ name := trimStr name, handicap := v, isPlus := ip }]) := by
          unfold addPlayer
          rw [hvn, hvh]
          simp
        rw [hres] at hp
        simp only [Option.some.injEq] at hp
        subst hp
        rw [validateHandicap_eq] at hvh
        split at hvh
        · exact absurd hvh (by simp)
        · rcases hpf : parseFloatQ
              (if handicap.contains '+' then removeFirst '+' handicap else handicap)
            with _ | w
          · rw [hpf] at hvh
            exact absurd hvh (by simp)
          · rw [hpf] at hvh
            simp only [] at hvh
            split at hvh
            · exact absurd hvh (by simp)
            case isFalse hng =>
              split at hvh
              case isTrue h54 => exact absurd hvh (by simp)
              case isFalse h54 =>
                simp only [Option.some.injEq, Prod.mk.injEq] at hvh
                obtain ⟨hv2, hip⟩ := hvh
                rw [hres]
                refine ⟨rfl, ?_, ?_, ?_, rfl⟩
                · simp only []
                  rw [← hv2]
                  exact le_of_not_lt h54
                · intro hc
                  simp only []
                  rw [← hv2]
                  by_contra hlt
                  exact hng ⟨lt_of_not_le hlt, hc⟩
                · simp only []
                  exact hip.symm

/-- C6 witness: a name without a comma is rejected. -/
theorem c6_witness : addPlayer ['X'] ['5'] [] = (none, []) :=
  (c6_addPlayer_validation ['X'] ['5'] []).1 (by decide)

/-- C6 counterexample: the input "+-3" (a plus sign occurring before a
negative literal) passes validation and appends a player whose
`handicapValue` is -3, violating `0 ≤ handicapValue`. -/
theorem c6_counterexample :
    (addPlayer ['A', ',', ' ', 'B'] ['+', '-', '3'] []).1 =
      some { name := ['A', ',', ' ', 'B'], handicap := -3, isPlus := true } ∧
    ¬(0 ≤ ({ name := ['A', ',', ' ', 'B'], handicap := -3, isPlus := true } : Player).handicap) := by
  constructor
  · decide
  · decide

/-- C7 (amended).  `processCSV` itself is partial-success: bad lines are
collected as per-line errors while every valid line still parses into a
player identical in shape to manual entry; but `processCSVHandler` commits
the parsed players to the registry only when the error list is empty, so a
CSV with any bad line imports nothing.  On the scenario input the parsed
player is named "A, B" (the source formats "Last, First" from
"LastName,FirstName,Handicap"), with handicap 10, and line 2 is the one
reported error. -/
theorem c7_csv_partial_success (csv : Str) (isGrouped : Bool) (st : AppState) :
    (0 < (processCSV csv).errors.length → processCSVHandler csv isGrouped st = st) ∧
    ((processCSV csv).errors = [] →
      (processCSVHandler csv isGrouped st).players = st.players ++ (processCSV csv).players) ∧
    processCSV csvSample =
      { players := [{ name := ['A', ',', ' ', 'B'], handicap := 10, isPlus := false }],
        errors := [2] } ∧
    (addPlayer ['A', ',', ' ', 'B'] ['1', '0'] []).1 =
      some { name := ['A', ',', ' ', 'B'], handicap := 10, isPlus := false } := by
  refine ⟨?_, ?_, by decide, by decide⟩
  · intro h
    unfold processCSVHandler
    rw [if_pos h]
  · intro h
    simp only [processCSVHandler, h, List.length_nil, lt_self_iff_false, if_false]
    split <;> rfl

/-- C7 witness: on the scenario CSV the handler leaves the store untouched. -/
theorem c7_witness : processCSVHandler csvSample false initialState = initialState :=
  (c7_csv_partial_success csvSample false initialState).1 (by decide)

/-- C7 counterexample: on "A,B,10\nC,D,bad\n" the parsed player is named
"A, B", not "B, A", and the import handler adds no player at all because one
line-level error was collected. -/
theorem c7_counterexample :
    (processCSV csvSample).players.map Player.name = [['A', ',', ' ', 'B']] ∧
    (processCSV csvSample).players.map Player.name ≠ [['B', ',', ' ', 'A']] ∧
    (processCSV csvSample).errors = [2] ∧
    (processCSVHandler csvSample false initialState).players = [] := by
  refine ⟨by decide, by decide, by decide, ?_⟩
  have h : processCSVHandler csvSample false initialState = initialState := by
    unfold processCSVHandler
    rw [if_pos (by decide : 0 < (processCSV csvSample).errors.length)]
  rw [h]
  rfl

/-- C9 (amended).  A successful `groupPlayers` discards any in-progress
draft state, but it leaves the previously formed teams untouched: the data
model never clears `teams` on regrouping (the UI clears them only when a
player is added or imported while grouped). -/
theorem c9_groupPlayers_frame (st : AppState) (h : (groupPlayers st).2 = true) :
    ((groupPlayers st).1).interactiveDraftState = none ∧
    ((groupPlayers st).1).teams = st.teams ∧
    ((groupPlayers st).1).players = st.players := by
  unfold groupPlayers at h ⊢
  split at h
  · exact absurd h (by simp)
  · rw [if_neg (by assumption)]
    exact ⟨rfl, rfl, rfl⟩

/-- C9 witness: regrouping the four-player store succeeds and keeps its
team list. -/
theorem c9_witness :
    ((groupPlayers c9state).1).interactiveDraftState = none ∧
    ((groupPlayers c9state).1).teams = c9state.teams ∧
    ((groupPlayers c9state).1).players = c9state.players :=
  c9_groupPlayers_frame c9state (by decide)

/-- C9 counterexample: a successful regroup keeps the existing (nonempty)
team list, so previously formed teams are not discarded. -/
theorem c9_counterexample :
    (groupPlayers c9state).2 = true ∧
    ((groupPlayers c9state).1).teams = [{ id := 1, members := [], totalHandicap := 0 }] ∧
    ((groupPlayers c9state).1).teams ≠ [] := by
  refine ⟨by decide, by decide, by decide⟩

/-- C10.  Whenever `3 * ceil(N/4) ≥ N` (e.g. N = 5, 6 or 9), the first
three quartile slices exhaust the sorted registry, `groupPlayers` succeeds
with group D empty, and `canFormTeam` is false although at least 4 players
are registered. -/
theorem c10_empty_groupD (st : AppState) (h4 : 4 ≤ st.players.length)
    (h3 : st.players.length ≤ 3 * quarterSize st.players.length) :
    (groupPlayers st).2 = true ∧
    ((groupPlayers st).1).groups.D = [] ∧
    canFormTeam ((groupPlayers st).1) = false := by
  have hnlt : ¬(st.players.length < 4) := Nat.not_lt.mpr h4
  have hD : (sortPlayers st.players).drop (quarterSize st.players.length * 3) = [] := by
    apply List.drop_eq_nil_of_le
    unfold sortPlayers
    rw [List.length_insertionSort]
    omega
  unfold groupPlayers
  rw [if_neg hnlt]
  refine ⟨rfl, hD, ?_⟩
  unfold canFormTeam
  simp [hD]

/-- C10 witness: with five players the fourth group comes out empty. -/
theorem c10_witness :
    (groupPlayers { initialState with players :=
      [{ name := ['a'], handicap := 1, isPlus := false },
       { name := ['b'], handicap := 2, isPlus := false },
       { name := ['c'], handicap := 3, isPlus := false },
       { name := ['d'], handicap := 4, isPlus := false },
       { name := ['e'], handicap := 5, isPlus := false }] }).2 = true ∧
    ((groupPlayers { initialState with players :=
      [{ name := ['a'], handicap := 1, isPlus := false },
       { name := ['b'], handicap := 2, isPlus := false },
       { name := ['c'], handicap := 3, isPlus := false },
       { name := ['d'], handicap := 4, isPlus := false },
       { name := ['e'], handicap := 5, isPlus := false }] }).1).groups.D = [] ∧
    canFormTeam ((groupPlayers { initialState with players :=
      [{ name := ['a'], handicap := 1, isPlus := false },
       { name := ['b'], handicap := 2, isPlus := false },
       { name := ['c'], handicap := 3, isPlus := false },
       { name := ['d'], handicap := 4, isPlus := false },
       { name := ['e'], handicap := 5, isPlus := false }] }).1) = false :=
  c10_empty_groupD _ (by decide) (by decide)

/-- A stable sort keeps the input order of every equal-key class: the
ascending insertion sort leaves any class of players closed under the order
untouched as a filtered subsequence. -/
theorem insertionSort_filter_stable (l : List Player) (pk : Player → Bool)
    (hpk : ∀ a b, pk a = true → pk b = true → handicapLE a b) :
    (l.insertionSort handicapLE).filter pk = l.filter pk := by
  have hself : (l.filter pk).filter pk = l.filter pk :=
    List.filter_eq_self.mpr fun a ha => List.of_mem_filter ha
  have hsub : List.Sublist (l.filter pk) (l.insertionSort handicapLE) := by
    apply List.sublist_insertionSort
    · exact List.pairwise_of_forall_mem_list fun a ha b hb =>
        hpk a b (List.of_mem_filter ha) (List.of_mem_filter hb)
    · exact List.filter_sublist l
  have hsub2 : List.Sublist (l.filter pk) ((l.insertionSort handicapLE).filter pk) := by
    have := hsub.filter pk
    rwa [hself] at this
  have hperm : List.Perm ((l.insertionSort handicapLE).filter pk) (l.filter pk) :=
    (List.perm_insertionSort handicapLE l).filter pk
  exact (hsub2.eq_of_length hperm.length_eq.symm).symm

/-- C4.  `groupPlayers` fails leaving the state unchanged below 4 players;
otherwise it succeeds, the sort is a permutation of the registry, ascending
in effective handicap and stable (every equal-handicap class keeps its
registry order), the four groups are the contiguous quartile slices of the
sorted list (ceil(N/4) each for A, B, C or fewer as players run out, D the
remainder), they concatenate back to the sorted list so their sizes sum to
N, and every player of group A has effective handicap at most that of every
player of group D. -/
theorem c4_groupPlayers_partition (st : AppState) :
    (st.players.length < 4 → groupPlayers st = (st, false)) ∧
    (4 ≤ st.players.length →
      (groupPlayers st).2 = true ∧
      List.Perm (sortPlayers st.players) st.players ∧
      List.Sorted handicapLE (sortPlayers st.players) ∧
      (∀ k : ℚ, (sortPlayers st.players).filter (fun p => decide (getNumericHandicap p = k)) =
        st.players.filter (fun p => decide (getNumericHandicap p = k))) ∧
      (let n := st.players.length
       let q := quarterSize n
       let sorted := sortPlayers st.players
       let gs := ((groupPlayers st).1).groups
       gs.A = sorted.take q ∧
       gs.B = (sorted.drop q).take q ∧
       gs.C = (sorted.drop (q * 2)).take q ∧
       gs.D = sorted.drop (q * 3) ∧
       gs.A ++ gs.B ++ gs.C ++ gs.D = sorted ∧
       gs.A.length + gs.B.length + gs.C.length + gs.D.length = n ∧
       gs.A.length = min q n ∧
       gs.B.length = min q (n - q) ∧
       gs.C.length = min q (n - q * 2) ∧
       gs.D.length = n - q * 3 ∧
       (∀ x ∈ gs.A, ∀ y ∈ gs.D, getNumericHandicap x ≤ getNumericHandicap y))) := by
  constructor
  · intro h
    unfold groupPlayers
    rw [if_pos h]
  · intro h4
    have hnlt : ¬(st.players.length < 4) := Nat.not_lt.mpr h4
    have hgp : groupPlayers st =
        ({ st with
            groups :=
              { A := ((sortPlayers st.players).drop 0).take (quarterSize st.players.length)
                B := ((sortPlayers st.players).drop (quarterSize st.players.length)).take
                  (quarterSize st.players.length)
                C := ((sortPlayers st.players).drop (quarterSize st.players.length * 2)).take
                  (quarterSize st.players.length)
                D := (sortPlayers st.players).drop (quarterSize st.players.length * 3) }
            interactiveDraftState := none }, true) := by
      unfold groupPlayers
      rw [if_neg hnlt]
    have hlen : (sortPlayers st.players).length = st.players.length :=
      List.length_insertionSort _ _
    have hsorted : List.Sorted handicapLE (sortPlayers st.players) :=
      List.sorted_insertionSort handicapLE st.players
    refine ⟨by rw [hgp], List.perm_insertionSort handicapLE st.players, hsorted,
      ?_, ?_⟩
    · intro k
      exact insertionSort_filter_stable st.players _ fun a b ha hb => by
        simp only [decide_eq_true_eq] at ha hb
        unfold handicapLE
        rw [ha, hb]
    · rw [hgp]
      simp only [List.drop_zero]
      set sorted := sortPlayers st.players with hs
      set q := quarterSize st.players.length with hq
      have e1 : sorted.take q ++ (sorted.drop q).take q ++ (sorted.drop (q * 2)).take q ++
          sorted.drop (q * 3) = sorted := by
        have d2 : (q : Nat) * 2 = q + q := by omega
        have d3 : (q : Nat) * 3 = q * 2 + q := by omega
        rw [d3, ← List.drop_drop, d2, ← List.drop_drop]
        rw [List.append_assoc, List.append_assoc]
        rw [List.take_append_drop]
        rw [List.take_append_drop]
        rw [List.take_append_drop]
      refine ⟨by trivial, by trivial, by trivial, by trivial, e1, ?_, ?_, ?_, ?_, ?_, ?_⟩
      · have := congrArg List.length e1
        simp only [List.length_append] at this
        omega
      · rw [List.length_take, hlen]
      · rw [List.length_take, List.length_drop, hlen]
      · rw [List.length_take, List.length_drop, hlen]
      · rw [List.length_drop, hlen]
      · intro x hx y hy
        have hq3 : q ≤ q * 3 := by omega
        have hx3 : x ∈ sorted.take (q * 3) := by
          have : sorted.take q = (sorted.take (q * 3)).take q := by
            rw [List.take_take, Nat.min_eq_left hq3]
          rw [this] at hx
          exact List.take_subset _ _ hx
        exact hsorted.rel_of_mem_take_of_mem_drop hx3 hy

/-- C4 witness: the four-player scenario registry groups successfully. -/
theorem c4_witness :
    (groupPlayers { initialState with players :=
      [{ name := ['S'], handicap := 10, isPlus := false },
       { name := ['D'], handicap := 5, isPlus := false },
       { name := ['L'], handicap := 20, isPlus := false },
       { name := ['N'], handicap := 2, isPlus := true }] }).2 = true :=
  ((c4_groupPlayers_partition _).2 (by decide)).1

/-- A team that the duplicate scan misses is on no hole at all (holes
outside 1..18 being empty). -/
theorem not_assigned_all {a : Nat → List Nat} {t : Nat}
    (hw : ∀ h, h < 1 ∨ 18 < h → a h = [])
    (hf : ¬(isAssignedAnywhere a t = true)) : ∀ hh, t ∉ a hh := by
  intro hh hmem
  by_cases hin : hh ∈ allHoles
  · exact hf (by
      unfold isAssignedAnywhere
      rw [List.any_eq_true]
      exact ⟨hh, hin, List.elem_iff.mpr hmem⟩)
  · have hout : hh < 1 ∨ 18 < hh := by
      rw [allHoles, List.mem_range'_1] at hin
      omega
    rw [hw hh hout] at hmem
    exact List.not_mem_nil t hmem

/-- `assignTeamToHole` with its let-bindings unfolded. -/
theorem assignTeamToHole_eq (t h : Nat) (a : Nat → List Nat) :
    assignTeamToHole t h a =
      (if t = 0 ∨ h < 1 ∨ 18 < h then (false, a)
       else if isAssignedAnywhere a t = true then (false, a)
       else if (if h ∈ doubleStackedHoles then 2 else 1) ≤ (a h).length then (false, a)
       else (true, fun h' => if h' = h then a h ++ [t] else a h')) := rfl

/-- `removeTeamFromHole` with its let-bindings unfolded. -/
theorem removeTeamFromHole_eq (t h : Nat) (a : Nat → List Nat) :
    removeTeamFromHole t h a =
      (if t = 0 ∨ h < 1 ∨ 18 < h then (false, a)
       else if !(a h).contains t then (false, a)
       else (true, fun h' => if h' = h then (a h).filter (fun i => i ≠ t) else a h')) := rfl

/-- `assignTeamToHole` preserves the assignment invariant. -/
theorem assignTeamToHole_inv (t h : Nat) (a : Nat → List Nat) (hinv : AssignInv a) :
    AssignInv (assignTeamToHole t h a).2 := by
  obtain ⟨hone, hdsh, hnorm, hwf⟩ := hinv
  rw [assignTeamToHole_eq]
  by_cases hvalid : (t = 0 ∨ h < 1 ∨ 18 < h)
  · rw [if_pos hvalid]
    exact ⟨hone, hdsh, hnorm, hwf⟩
  rw [if_neg hvalid]
  by_cases hfree : isAssignedAnywhere a t = true
  · rw [if_pos hfree]
    exact ⟨hone, hdsh, hnorm, hwf⟩
  rw [if_neg hfree]
  by_cases hcap : (if h ∈ doubleStackedHoles then 2 else 1) ≤ (a h).length
  · rw [if_pos hcap]
    exact ⟨hone, hdsh, hnorm, hwf⟩
  rw [if_neg hcap]
  have hval : t ≠ 0 ∧ 1 ≤ h ∧ h ≤ 18 := by
    push_neg at hvalid
    omega
  have hnone : ∀ hh, t ∉ a hh := not_assigned_all hwf hfree
  refine ⟨?_, ?_, ?_, ?_⟩
  · intro t' h1 h2 hm1 hm2
    simp only [] at hm1 hm2
    by_cases e1 : h1 = h <;> by_cases e2 : h2 = h
    · rw [e1, e2]
    · rw [if_pos e1] at hm1
      rw [if_neg e2] at hm2
      rcases List.mem_append.mp hm1 with hm1 | hm1
      · rw [e1, hone t' h h2 hm1 hm2]
      · rw [List.mem_singleton] at hm1
        subst hm1
        exact absurd hm2 (hnone h2)
    · rw [if_neg e1] at hm1
      rw [if_pos e2] at hm2
      rcases List.mem_append.mp hm2 with hm2 | hm2
      · rw [e2, hone t' h1 h hm1 hm2]
      · rw [List.mem_singleton] at hm2
        subst hm2
        exact absurd hm1 (hnone h1)
    · rw [if_neg e1] at hm1
      rw [if_neg e2] at hm2
      exact hone t' h1 h2 hm1 hm2
  · intro hh hmem
    simp only []
    by_cases e : hh = h
    · subst e
      rw [if_pos rfl, List.length_append, List.length_singleton]
      rw [if_pos hmem] at hcap
      omega
    · rw [if_neg e]
      exact hdsh hh hmem
  · intro hh hmem
    simp only []
    by_cases e : hh = h
    · subst e
      rw [if_pos rfl, List.length_append, List.length_singleton]
      rw [if_neg hmem] at hcap
      omega
    · rw [if_neg e]
      exact hnorm hh hmem
  · intro hh hout
    simp only []
    by_cases e : hh = h
    · subst e
      omega
    · rw [if_neg e]
      exact hwf hh hout

/-- `removeTeamFromHole` preserves the assignment invariant. -/
theorem removeTeamFromHole_inv (t h : Nat) (a : Nat → List Nat) (hinv : AssignInv a) :
    AssignInv (removeTeamFromHole t h a).2 := by
  obtain ⟨hone, hdsh, hnorm, hwf⟩ := hinv
  unfold removeTeamFromHole
  split
  · exact ⟨hone, hdsh, hnorm, hwf⟩
  split
  · exact ⟨hone, hdsh, hnorm, hwf⟩
  refine ⟨?_, ?_, ?_, ?_⟩
  · intro t' h1 h2 hm1 hm2
    simp only [] at hm1 hm2
    have sub : ∀ hh, t' ∈ (if hh = h then (a h).filter (fun i => i ≠ t) else a hh) →
        t' ∈ a hh := by
      intro hh hm
      by_cases e : hh = h
      · rw [if_pos e] at hm
        rw [e]
        exact List.mem_of_mem_filter hm
      · rwa [if_neg e] at hm
    exact hone t' h1 h2 (sub h1 hm1) (sub h2 hm2)
  · intro hh hmem
    simp only []
    by_cases e : hh = h
    · rw [if_pos e]
      calc ((a h).filter (fun i => i ≠ t)).length ≤ (a h).length := List.length_filter_le _ _
        _ ≤ 2 := by rw [← e]; exact hdsh hh hmem
    · rw [if_neg e]
      exact hdsh hh hmem
  · intro hh hmem
    simp only []
    by_cases e : hh = h
    · rw [if_pos e]
      calc ((a h).filter (fun i => i ≠ t)).length ≤ (a h).length := List.length_filter_le _ _
        _ ≤ 1 := by rw [← e]; exact hnorm hh hmem
    · rw [if_neg e]
      exact hnorm hh hmem
  · intro hh hout
    simp only []
    by_cases e : hh = h
    · rw [if_pos e, ← e, hwf hh hout]
      rfl
    · rw [if_neg e]
      exact hwf hh hout

/-- The first assignment pass preserves the invariant. -/
theorem passOne_inv : ∀ (holes ts : List Nat) (a : Nat → List Nat),
    AssignInv a → AssignInv (passOne a ts holes).1 := by
  intro holes
  induction holes with
  | nil => intro ts a h; cases ts <;> exact h
  | cons hd tl ih =>
    intro ts a h
    cases ts with
    | nil => exact h
    | cons t ts' =>
      simp only [passOne]
      split
      · exact ih _ _ (assignTeamToHole_inv _ _ _ h)
      · exact ih _ _ (assignTeamToHole_inv _ _ _ h)

/-- The second (double-stacking) pass preserves the invariant. -/
theorem passTwo_inv : ∀ (holes ts : List Nat) (a : Nat → List Nat),
    AssignInv a → AssignInv (passTwo a ts holes).1 := by
  intro holes
  induction holes with
  | nil => intro ts a h; cases ts <;> exact h
  | cons hd tl ih =>
    intro ts a h
    cases ts with
    | nil => exact h
    | cons t ts' =>
      simp only [passTwo]
      split
      · split
        · exact ih _ _ (assignTeamToHole_inv _ _ _ h)
        · exact ih _ _ (assignTeamToHole_inv _ _ _ h)
      · exact ih _ _ h

/-- The cleared sheet satisfies the invariant. -/
theorem emptyAssignments_inv : AssignInv emptyAssignments := by
  refine ⟨?_, ?_, ?_, ?_⟩ <;> intro _ <;> simp [emptyAssignments]

/-- `autoAssignTeams` establishes the invariant from any state. -/
theorem autoAssignTeams_inv (teams : List Team) (a : Nat → List Nat) :
    AssignInv (autoAssignTeams teams a) := by
  unfold autoAssignTeams
  exact passTwo_inv _ _ _ (passOne_inv _ _ _ emptyAssignments_inv)

/-- `randomizeTeamAssignments` establishes the invariant from any state. -/
theorem randomizeTeamAssignments_inv (cs : List Nat) (teams : List Team)
    (a : Nat → List Nat) : AssignInv (randomizeTeamAssignments cs teams a) := by
  unfold randomizeTeamAssignments
  exact passTwo_inv _ _ _ (passOne_inv _ _ _ emptyAssignments_inv)

/-- C1.  Every hole-assignment map reachable through the documented
operations (assignTeamToHole, removeTeamFromHole, autoAssignTeams,
randomizeTeamAssignments, from the empty sheet) satisfies the invariant: a
team id occurs on at most one hole, a double-stacked hole holds at most two
ids, any other hole at most one. -/
theorem c1_assignment_invariant (a : Nat → List Nat) (h : ReachableAssign a) :
    AssignInv a := by
  induction h with
  | init => exact emptyAssignments_inv
  | assign t hole _ ih => exact assignTeamToHole_inv t hole _ ih
  | remove t hole _ ih => exact removeTeamFromHole_inv t hole _ ih
  | auto teams _ _ => exact autoAssignTeams_inv teams _
  | rand cs teams _ _ => exact randomizeTeamAssignments_inv cs teams _

/-- C1 witness: the invariant after one concrete assignment. -/
theorem c1_witness : AssignInv (assignTeamToHole 5 3 emptyAssignments).2 :=
  c1_assignment_invariant _ (ReachableAssign.assign 5 3 ReachableAssign.init)

/-- With no teams the row builder yields no rows. -/
theorem buildRows_teams_nil (fmt : StartFormat) (start interval : Nat) :
    ∀ (pairs : List (Nat × Nat)) (count : Nat),
      buildRows [] fmt start interval pairs count = [] := by
  intro pairs
  induction pairs with
  | nil => intro count; rfl
  | cons p rest ih =>
    intro count
    rcases p with ⟨hh, tid⟩
    simp only [buildRows, findTeamById, List.find?_nil]
    exact ih count

/-- Under the sequential format the `k`-th built row is timed `count + k`
interval steps after the start. -/
theorem buildRows_seq_get (teams : List Team) (start interval : Nat) :
    ∀ (pairs : List (Nat × Nat)) (count k : Nat) (r : TeeRow),
      (buildRows teams StartFormat.sequential start interval pairs count).get? k = some r →
      r.teeTime = (start + (count + k) * interval) % 1440 := by
  intro pairs
  induction pairs with
  | nil =>
    intro count k r h
    simp [buildRows] at h
  | cons p rest ih =>
    intro count k r h
    rcases p with ⟨hh, tid⟩
    simp only [buildRows] at h
    rcases hf : findTeamById teams tid with _ | T
    · rw [hf] at h
      exact ih count k r h
    · rw [hf] at h
      simp only [] at h
      cases k with
      | zero =>
        rw [List.get?_cons_zero] at h
        injection h with h
        rw [← h, Nat.add_zero]
      | succ k' =>
        rw [List.get?_cons_succ] at h
        have h2 := ih (count + 1) k' r h
        have e : count + 1 + k' = count + (k' + 1) := by omega
        rw [h2, e]

/-- Under the shotgun format every built row is timed at the start. -/
theorem buildRows_shotgun_mem (teams : List Team) (start interval : Nat) :
    ∀ (pairs : List (Nat × Nat)) (count : Nat) (r : TeeRow),
      r ∈ buildRows teams StartFormat.shotgun start interval pairs count →
      r.teeTime = start % 1440 := by
  intro pairs
  induction pairs with
  | nil =>
    intro count r h
    simp [buildRows] at h
  | cons p rest ih =>
    intro count r h
    rcases p with ⟨hh, tid⟩
    simp only [buildRows] at h
    rcases hf : findTeamById teams tid with _ | T
    · rw [hf] at h
      exact ih count r h
    · rw [hf] at h
      simp only [List.mem_cons] at h
      rcases h with h | h
      · rw [h]
      · exact ih count r h

/-- C8.  The tee sheet is a pure projection of the assignments: rows are
built in hole-iteration order (holes 1..18, slots in list order); under the
sequential format the `k`-th row in that order is timed `startTime + k *
timeInterval` minutes (as a time of day) and the displayed rows are the
stable sort by (time, hole); under shotgun every row is timed `startTime`
and the displayed rows are the stable sort by hole number alone. -/
theorem c8_teeSheet_projection (st : AppState) :
    (st.settings.startFormat = StartFormat.sequential →
      updateTeeSheet st =
        (buildRows st.teams StartFormat.sequential st.settings.startTime
          st.settings.timeInterval (holeSlotPairs st.holeAssignments) 0).insertionSort seqLE ∧
      List.Perm (updateTeeSheet st)
        (buildRows st.teams StartFormat.sequential st.settings.startTime
          st.settings.timeInterval (holeSlotPairs st.holeAssignments) 0) ∧
      List.Sorted seqLE (updateTeeSheet st) ∧
      (∀ (k : Nat) (r : TeeRow),
        (buildRows st.teams StartFormat.sequential st.settings.startTime
          st.settings.timeInterval (holeSlotPairs st.holeAssignments) 0).get? k = some r →
        r.teeTime = (st.settings.startTime + k * st.settings.timeInterval) % 1440)) ∧
    (st.settings.startFormat = StartFormat.shotgun →
      updateTeeSheet st =
        (buildRows st.teams StartFormat.shotgun st.settings.startTime
          st.settings.timeInterval (holeSlotPairs st.holeAssignments) 0).insertionSort holeLE ∧
      List.Perm (updateTeeSheet st)
        (buildRows st.teams StartFormat.shotgun st.settings.startTime
          st.settings.timeInterval (holeSlotPairs st.holeAssignments) 0) ∧
      List.Sorted holeLE (updateTeeSheet st) ∧
      (∀ r ∈ buildRows st.teams StartFormat.shotgun st.settings.startTime
          st.settings.timeInterval (holeSlotPairs st.holeAssignments) 0,
        r.teeTime = st.settings.startTime % 1440)) := by
  constructor
  · intro hseq
    have he : updateTeeSheet st =
        (buildRows st.teams StartFormat.sequential st.settings.startTime
          st.settings.timeInterval (holeSlotPairs st.holeAssignments) 0).insertionSort seqLE := by
      unfold updateTeeSheet
      by_cases hte : st.teams.length = 0
      · rw [if_pos hte]
        have hnil : st.teams = [] := List.length_eq_zero.mp hte
        rw [hnil, buildRows_teams_nil]
        rfl
      · rw [if_neg hte]
        simp only [hseq]
    refine ⟨he, ?_, ?_, ?_⟩
    · rw [he]
      exact List.perm_insertionSort _ _
    · rw [he]
      exact List.sorted_insertionSort _ _
    · intro k r hk
      have := buildRows_seq_get st.teams st.settings.startTime st.settings.timeInterval
        (holeSlotPairs st.holeAssignments) 0 k r hk
      rwa [Nat.zero_add] at this
  · intro hsg
    have he : updateTeeSheet st =
        (buildRows st.teams StartFormat.shotgun st.settings.startTime
          st.settings.timeInterval (holeSlotPairs st.holeAssignments) 0).insertionSort holeLE := by
      unfold updateTeeSheet
      by_cases hte : st.teams.length = 0
      · rw [if_pos hte]
        have hnil : st.teams = [] := List.length_eq_zero.mp hte
        rw [hnil, buildRows_teams_nil]
        rfl
      · rw [if_neg hte]
        simp only [hsg]
    refine ⟨he, ?_, ?_, ?_⟩
    · rw [he]
      exact List.perm_insertionSort _ _
    · rw [he]
      exact List.sorted_insertionSort _ _
    · intro r hr
      exact buildRows_shotgun_mem st.teams st.settings.startTime st.settings.timeInterval
        (holeSlotPairs st.holeAssignments) 0 r hr

/-- C8 witness: the sheet of a store with one team on hole 1 is its stable
(time, hole) sort. -/
theorem c8_witness :
    List.Sorted seqLE (updateTeeSheet { initialState with
      teams := [{ id := 1, members := [], totalHandicap := 0 }]
      holeAssignments := fun h => if h = 1 then [1] else [] }) :=
  ((c8_teeSheet_projection _).1 rfl).2.2.1

/-- Membership on the sheet is membership on some hole 1..18. -/
theorem mem_assignedList {a : Nat → List Nat} {t : Nat} :
    t ∈ assignedList a ↔ ∃ h ∈ allHoles, t ∈ a h := by
  unfold assignedList
  rw [List.mem_flatten]
  constructor
  · rintro ⟨s, hs, hts⟩
    obtain ⟨h, hh, rfl⟩ := List.mem_map.mp hs
    exact ⟨h, hh, hts⟩
  · rintro ⟨h, hh, hts⟩
    exact ⟨a h, List.mem_map.mpr ⟨h, hh, rfl⟩, hts⟩

/-- The duplicate scan comes back clean exactly when the team is on no
hole. -/
theorem isAssignedAnywhere_false {a : Nat → List Nat} {t : Nat} :
    isAssignedAnywhere a t = false ↔ ∀ h ∈ allHoles, t ∉ a h := by
  unfold isAssignedAnywhere
  rw [List.any_eq_false]
  constructor
  · intro hf h hh hm
    exact hf h hh (List.elem_iff.mpr hm)
  · intro hall h hh hc
    exact hall h hh (List.elem_iff.mp hc)

/-- Appending one id at an occupied hole appends it to the sheet, up to
order. -/
theorem flatten_map_update_perm :
    ∀ (holes : List Nat), holes.Nodup → ∀ (h0 x : Nat), h0 ∈ holes →
    ∀ (a : Nat → List Nat),
    List.Perm ((holes.map (fun h => if h = h0 then a h0 ++ [x] else a h)).flatten)
      ((holes.map a).flatten ++ [x]) := by
  intro holes
  induction holes with
  | nil => intro _ h0 x hin; cases hin
  | cons hd tl ih =>
    intro hnd h0 x hin a
    have hnof : hd ∉ tl := (List.nodup_cons.mp hnd).1
    rcases List.mem_cons.mp hin with rfl | hin'
    · have hmap : tl.map (fun h => if h = h0 then a h0 ++ [x] else a h) = tl.map a :=
        List.map_congr_left fun h hh => if_neg (fun e => hnof (by rw [← e]; exact hh))
      simp only [List.map_cons, List.flatten_cons, hmap, eq_self_iff_true, if_true]
      simp only [List.append_assoc]
      exact List.Perm.append_left _ List.perm_append_comm
    · have hne : hd ≠ h0 := fun e => hnof (by rw [e]; exact hin')
      simp only [List.map_cons, List.flatten_cons, if_neg hne]
      have hperm := ih (List.nodup_cons.mp hnd).2 h0 x hin' a
      simp only [List.append_assoc]
      exact List.Perm.append_left _ hperm

/-- The first pass on fresh holes and fresh distinct nonzero ids: every
assignment succeeds, so hole number `hs[i]` receives id `ts[i]`, the ids
past `|hs|` stay pending, other holes are untouched, and the sheet gains
exactly `ts.take |hs|`. -/
theorem passOne_spec :
    ∀ (hs ts : List Nat) (a : Nat → List Nat),
    hs.Nodup →
    (∀ h ∈ hs, (1 ≤ h ∧ h ≤ 18) ∧ a h = []) →
    ts.Nodup →
    (∀ t ∈ ts, t ≠ 0 ∧ isAssignedAnywhere a t = false) →
    (passOne a ts hs).2 = ts.drop hs.length ∧
    (∀ h, h ∉ hs → (passOne a ts hs).1 h = a h) ∧
    (∀ (i h : Nat), hs.get? i = some h →
      (passOne a ts hs).1 h = a h ++ (ts.drop i).take 1) ∧
    List.Perm (assignedList (passOne a ts hs).1) (assignedList a ++ ts.take hs.length) := by
  intro hs
  induction hs with
  | nil =>
    intro ts a _ _ _ _
    refine ⟨by cases ts <;> rfl, fun h _ => by cases ts <;> rfl, ?_, ?_⟩
    · intro i h hget
      simp at hget
    · cases ts <;> simp [passOne, assignedList]
  | cons hd tl ih =>
    intro ts a hnd hholes tnd tfr
    obtain ⟨hdb, hdempty⟩ := hholes hd (List.mem_cons_self hd tl)
    have hdtl : hd ∉ tl := (List.nodup_cons.mp hnd).1
    cases ts with
    | nil =>
      refine ⟨by simp [passOne], fun h _ => rfl, ?_, by simp [passOne]⟩
      intro i h hget
      simp [passOne, List.drop_nil]
    | cons t ts' =>
      have ht := tfr t (List.mem_cons_self t ts')
      have hsucc : assignTeamToHole t hd a =
          (true, fun h => if h = hd then a hd ++ [t] else a h) := by
        rw [assignTeamToHole_eq]
        rw [if_neg (by push_neg; exact ⟨ht.1, by omega, by omega⟩)]
        rw [if_neg (by rw [ht.2]; simp)]
        rw [if_neg (by rw [hdempty]; split <;> simp)]
      have hstep : passOne a (t :: ts') (hd :: tl) =
          passOne (fun h => if h = hd then a hd ++ [t] else a h) ts' tl := by
        simp only [passOne, hsucc, eq_self_iff_true, if_true]
      have hfresh := fun t' ht' => ((isAssignedAnywhere_false).mp (tfr t' ht').2)
      have hmem_old : ∀ t' ∈ (t :: ts'), ∀ hh ∈ allHoles, t' ∉ a hh := fun t' ht' =>
        hfresh t' ht'
      obtain ⟨ih1, ih2, ih3, ih4⟩ :=
        ih ts' (fun h => if h = hd then a hd ++ [t] else a h)
          (List.nodup_cons.mp hnd).2
          (by
            intro h hh
            have hne : h ≠ hd := fun e => hdtl (e ▸ hh)
            simp only [hne, if_false]
            exact (hholes h (List.mem_cons_of_mem hd hh)))
          (List.nodup_cons.mp tnd).2
          (by
            intro t' ht'
            refine ⟨(tfr t' (List.mem_cons_of_mem t ht')).1, ?_⟩
            rw [isAssignedAnywhere_false]
            intro hh hhmem hmem
            by_cases e : hh = hd
            · rw [if_pos e] at hmem
              rcases List.mem_append.mp hmem with hmem | hmem
              · exact hmem_old t' (List.mem_cons_of_mem t ht') hd (e ▸ hhmem) hmem
              · rw [List.mem_singleton] at hmem
                exact (List.nodup_cons.mp tnd).1 (hmem ▸ ht')
            · rw [if_neg e] at hmem
              exact hmem_old t' (List.mem_cons_of_mem t ht') hh hhmem hmem)
      refine ⟨?_, ?_, ?_, ?_⟩
      · rw [hstep, ih1]
        simp [List.length_cons, List.drop_succ_cons]
      · intro h hnot
        rw [hstep, ih2 h (fun hh => hnot (List.mem_cons_of_mem hd hh))]
        have hne2 : h ≠ hd := fun e => hnot (e ▸ List.mem_cons_self hd tl)
        simp [hne2]
      · intro i h hget
        cases i with
        | zero =>
          rw [List.get?_cons_zero] at hget
          injection hget with hget
          subst hget
          rw [hstep, ih2 hd hdtl]
          simp
        | succ i' =>
          rw [List.get?_cons_succ] at hget
          have hhtl : h ∈ tl := List.get?_mem hget
          have hne : h ≠ hd := fun e => hdtl (e ▸ hhtl)
          rw [hstep, ih3 i' h hget, List.drop_succ_cons]
          simp [hne]
      · rw [hstep]
        have hup := flatten_map_update_perm allHoles (by decide) hd t
          (by rw [allHoles, List.mem_range'_1]; omega) a
        have hcomb := List.Perm.trans ih4 (List.Perm.append_right _ hup)
        rw [List.append_assoc] at hcomb
        simpa [List.length_cons, List.take_succ_cons, List.singleton_append] using hcomb

/-- The second pass on fresh distinct nonzero ids: exactly the double-stacked
holes still below two teams (in hole order) receive the pending ids in
order; every other hole is untouched and the sheet gains exactly that many
ids. -/
theorem passTwo_spec :
    ∀ (hs ts : List Nat) (a : Nat → List Nat),
    hs.Nodup →
    (∀ h ∈ hs, 1 ≤ h ∧ h ≤ 18) →
    ts.Nodup →
    (∀ t ∈ ts, t ≠ 0 ∧ isAssignedAnywhere a t = false) →
    (passTwo a ts hs).2 =
      ts.drop (hs.filter (fun h =>
        decide (h ∈ doubleStackedHoles ∧ (a h).length < 2))).length ∧
    (∀ h, h ∉ hs.filter (fun h => decide (h ∈ doubleStackedHoles ∧ (a h).length < 2)) →
      (passTwo a ts hs).1 h = a h) ∧
    (∀ (i h : Nat),
      (hs.filter (fun h => decide (h ∈ doubleStackedHoles ∧ (a h).length < 2))).get? i =
        some h →
      (passTwo a ts hs).1 h = a h ++ (ts.drop i).take 1) ∧
    List.Perm (assignedList (passTwo a ts hs).1)
      (assignedList a ++ ts.take (hs.filter (fun h =>
        decide (h ∈ doubleStackedHoles ∧ (a h).length < 2))).length) := by
  intro hs
  induction hs with
  | nil =>
    intro ts a _ _ _ _
    refine ⟨by cases ts <;> rfl, fun h _ => by cases ts <;> rfl, ?_, ?_⟩
    · intro i h hget
      simp at hget
    · cases ts <;> simp [passTwo, assignedList]
  | cons hd tl ih =>
    intro ts a hnd hholes tnd tfr
    have hdb := hholes hd (List.mem_cons_self hd tl)
    have hdtl : hd ∉ tl := (List.nodup_cons.mp hnd).1
    cases ts with
    | nil =>
      refine ⟨by simp [passTwo], fun h _ => rfl, ?_, by simp [passTwo]⟩
      intro i h hget
      simp [passTwo, List.drop_nil]
    | cons t ts' =>
      have ht := tfr t (List.mem_cons_self t ts')
      by_cases hq : hd ∈ doubleStackedHoles ∧ (a hd).length < 2
      · -- the hole qualifies and receives the next id
        have hsucc : assignTeamToHole t hd a =
            (true, fun h => if h = hd then a hd ++ [t] else a h) := by
          rw [assignTeamToHole_eq]
          rw [if_neg (by push_neg; exact ⟨ht.1, by omega, by omega⟩)]
          rw [if_neg (by rw [ht.2]; simp)]
          rw [if_neg (by rw [if_pos hq.1]; omega)]
        have hstep : passTwo a (t :: ts') (hd :: tl) =
            passTwo (fun h => if h = hd then a hd ++ [t] else a h) ts' tl := by
          simp only [passTwo, if_pos hq, hsucc, eq_self_iff_true, if_true]
        have hfilt : (hd :: tl).filter (fun h =>
            decide (h ∈ doubleStackedHoles ∧ (a h).length < 2)) =
            hd :: tl.filter (fun h =>
              decide (h ∈ doubleStackedHoles ∧
                ((fun h => if h = hd then a hd ++ [t] else a h) h).length < 2)) := by
          rw [List.filter_cons, if_pos (by simp [hq])]
          congr 1
          refine (List.filter_congr ?_).symm
          intro h hh
          have hne : h ≠ hd := fun e => hdtl (e ▸ hh)
          simp [hne]
        have hmem_old : ∀ t' ∈ (t :: ts'), ∀ hh ∈ allHoles, t' ∉ a hh := fun t' ht' =>
          (isAssignedAnywhere_false).mp (tfr t' ht').2
        obtain ⟨ih1, ih2, ih3, ih4⟩ :=
          ih ts' (fun h => if h = hd then a hd ++ [t] else a h)
            (List.nodup_cons.mp hnd).2
            (by
              intro h hh
              exact hholes h (List.mem_cons_of_mem hd hh))
            (List.nodup_cons.mp tnd).2
            (by
              intro t' ht'
              refine ⟨(tfr t' (List.mem_cons_of_mem t ht')).1, ?_⟩
              rw [isAssignedAnywhere_false]
              intro hh hhmem hmem
              by_cases e : hh = hd
              · rw [if_pos e] at hmem
                rcases List.mem_append.mp hmem with hmem | hmem
                · exact hmem_old t' (List.mem_cons_of_mem t ht') hd (e ▸ hhmem) hmem
                · rw [List.mem_singleton] at hmem
                  exact (List.nodup_cons.mp tnd).1 (hmem ▸ ht')
              · rw [if_neg e] at hmem
                exact hmem_old t' (List.mem_cons_of_mem t ht') hh hhmem hmem)
        refine ⟨?_, ?_, ?_, ?_⟩
        · rw [hstep, ih1, hfilt]
          simp [List.length_cons, List.drop_succ_cons]
        · intro h hnot
          rw [hfilt] at hnot
          rw [hstep, ih2 h (fun hh => hnot (List.mem_cons_of_mem hd hh))]
          have hne2 : h ≠ hd := fun e => hnot (e ▸ List.mem_cons_self hd _)
          simp [hne2]
        · intro i h hget
          rw [hfilt] at hget
          cases i with
          | zero =>
            rw [List.get?_cons_zero] at hget
            injection hget with hget
            subst hget
            have hdnot : hd ∉ tl.filter (fun h =>
                decide (h ∈ doubleStackedHoles ∧
                  ((fun h => if h = hd then a hd ++ [t] else a h) h).length < 2)) :=
              fun hmem => hdtl (List.mem_of_mem_filter hmem)
            rw [hstep, ih2 hd hdnot]
            simp
          | succ i' =>
            rw [List.get?_cons_succ] at hget
            have hhtl : h ∈ tl :=
              List.mem_of_mem_filter (List.get?_mem hget)
            have hne : h ≠ hd := fun e => hdtl (e ▸ hhtl)
            rw [hstep, ih3 i' h hget, List.drop_succ_cons]
            simp [hne]
        · rw [hstep, hfilt]
          have hup := flatten_map_update_perm allHoles (by decide) hd t
            (by rw [allHoles, List.mem_range'_1]; omega) a
          have hcomb := List.Perm.trans ih4 (List.Perm.append_right _ hup)
          rw [List.append_assoc] at hcomb
          simpa [List.length_cons, List.take_succ_cons, List.singleton_append] using hcomb
      · -- the hole is skipped
        have hstep : passTwo a (t :: ts') (hd :: tl) = passTwo a (t :: ts') tl := by
          simp only [passTwo, if_neg hq]
        have hfilt : (hd :: tl).filter (fun h =>
            decide (h ∈ doubleStackedHoles ∧ (a h).length < 2)) =
            tl.filter (fun h => decide (h ∈ doubleStackedHoles ∧ (a h).length < 2)) := by
          rw [List.filter_cons, if_neg (by simp [hq])]
        obtain ⟨ih1, ih2, ih3, ih4⟩ :=
          ih (t :: ts') a (List.nodup_cons.mp hnd).2
            (fun h hh => hholes h (List.mem_cons_of_mem hd hh)) tnd tfr
        exact ⟨by rw [hstep, ih1, hfilt], fun h hnot => by
            rw [hstep, ih2 h (by rw [hfilt] at hnot; exact hnot)],
          fun i h hget => by
            rw [hfilt] at hget
            rw [hstep, ih3 i h hget],
          by rw [hstep, hfilt]; exact ih4⟩

/-- Writing a list element back to the front is a permutation. -/
theorem set_cons_perm {α : Type} : ∀ (t : List α) (k : Nat) (a y : α),
    t.get? k = some y → List.Perm (y :: t.set k a) (a :: t) := by
  intro t
  induction t with
  | nil =>
    intro k a y h
    simp at h
  | cons b t' ih =>
    intro k a y h
    cases k with
    | zero =>
      rw [List.get?_cons_zero] at h
      injection h with h
      subst h
      simp only [List.set]
      exact List.Perm.swap a b t'
    | succ k' =>
      rw [List.get?_cons_succ] at h
      simp only [List.set]
      exact ((List.Perm.swap b y _).trans ((ih k' a y h).cons b)).trans (List.Perm.swap a b t')

/-- The element swap of two valid positions is a permutation. -/
theorem set_set_perm {α : Type} : ∀ (l : List α) (i j : Nat) (x y : α),
    l.get? i = some x → l.get? j = some y → List.Perm ((l.set i y).set j x) l := by
  intro l
  induction l with
  | nil =>
    intro i j x y hx
    simp at hx
  | cons b t ih =>
    intro i j x y hx hy
    cases i with
    | zero =>
      rw [List.get?_cons_zero] at hx
      injection hx with hx
      subst hx
      cases j with
      | zero =>
        rw [List.get?_cons_zero] at hy
        injection hy with hy
        subst hy
        simp only [List.set]
        exact List.Perm.refl _
      | succ m =>
        rw [List.get?_cons_succ] at hy
        simp only [List.set]
        exact set_cons_perm t m b y hy
    | succ k =>
      rw [List.get?_cons_succ] at hx
      cases j with
      | zero =>
        rw [List.get?_cons_zero] at hy
        injection hy with hy
        subst hy
        simp only [List.set]
        exact set_cons_perm t k b x hx
      | succ m =>
        rw [List.get?_cons_succ] at hy
        simp only [List.set]
        exact (ih k m x y hx hy).cons b

/-- `swapIdx` permutes its list. -/
theorem swapIdx_perm {α : Type} (l : List α) (i j : Nat) :
    List.Perm (swapIdx l i j) l := by
  unfold swapIdx
  rcases hx : l.get? i with _ | x
  · exact List.Perm.refl _
  · rcases hy : l.get? j with _ | y
    · exact List.Perm.refl _
    · exact set_set_perm l i j x y hx hy

/-- The Fisher-Yates loop permutes its list. -/
theorem fyAux_perm {α : Type} : ∀ (i : Nat) (cs : List Nat) (l : List α),
    List.Perm (fyAux l i cs) l := by
  intro i
  induction i with
  | zero => intro cs l; exact List.Perm.refl _
  | succ i' ih =>
    intro cs l
    exact (ih cs.tail _).trans (swapIdx_perm l (i' + 1) (cs.headD 0 % (i' + 2)))

/-- C5's shuffle: `fyShuffle` is a permutation of the team list for every
sequence of random draws. -/
theorem fyShuffle_perm {α : Type} (cs : List Nat) (l : List α) :
    List.Perm (fyShuffle cs l) l :=
  fyAux_perm (l.length - 1) cs l

/-- With the sheet cleared every team is unassigned. -/
theorem getUnassignedTeams_empty (teams : List Team) :
    getUnassignedTeams teams emptyAssignments = teams := by
  apply List.filter_eq_self.mpr
  intro T _
  have : isAssignedAnywhere emptyAssignments T.id = false :=
    isAssignedAnywhere_false.mpr fun h _ hm => List.not_mem_nil _ hm
  rw [this]
  rfl

/-- The position of hole `h` in the hole iteration is `h - 1`. -/
theorem allHoles_get (h : Nat) (h1 : 1 ≤ h) (h18 : h ≤ 18) :
    allHoles.get? (h - 1) = some h := by
  interval_cases h <;> rfl

/-- The two passes from a cleared sheet place ids `0..17` one per hole in
order, then ids `18..27` on the double-stacked holes in order: the sheet
ends up carrying exactly the first `min |ts| 28` ids. -/
theorem twoPass_spec (ts : List Nat) (hnd : ts.Nodup) (h0 : ∀ t ∈ ts, t ≠ 0) :
    List.Perm
      (assignedList (passTwo (passOne emptyAssignments ts allHoles).1
        (passOne emptyAssignments ts allHoles).2 allHoles).1)
      (ts.take 28) ∧
    (∀ h, 1 ≤ h → h ≤ 18 → h ∉ doubleStackedHoles →
      (passTwo (passOne emptyAssignments ts allHoles).1
        (passOne emptyAssignments ts allHoles).2 allHoles).1 h = (ts.drop (h - 1)).take 1) ∧
    (∀ (j h : Nat), doubleStackedHoles.get? j = some h →
      (passTwo (passOne emptyAssignments ts allHoles).1
        (passOne emptyAssignments ts allHoles).2 allHoles).1 h =
        (ts.drop (h - 1)).take 1 ++ ((ts.drop 18).drop j).take 1) ∧
    (∀ h, h < 1 ∨ 18 < h →
      (passTwo (passOne emptyAssignments ts allHoles).1
        (passOne emptyAssignments ts allHoles).2 allHoles).1 h = []) := by
  have hfr0 : ∀ t ∈ ts, t ≠ 0 ∧ isAssignedAnywhere emptyAssignments t = false := by
    intro t ht
    exact ⟨h0 t ht, isAssignedAnywhere_false.mpr fun h _ hm => List.not_mem_nil _ hm⟩
  obtain ⟨e2, hunch, hchar, hperm1⟩ :=
    passOne_spec allHoles ts emptyAssignments (by decide)
      (by
        intro h hh
        rw [allHoles, List.mem_range'_1] at hh
        exact ⟨⟨hh.1, by omega⟩, rfl⟩)
      hnd hfr0
  have h18 : allHoles.length = 18 := rfl
  rw [h18] at e2 hperm1
  have hchar1 : ∀ h, 1 ≤ h → h ≤ 18 →
      (passOne emptyAssignments ts allHoles).1 h = (ts.drop (h - 1)).take 1 := by
    intro h h1 h18'
    have := hchar (h - 1) h (allHoles_get h h1 h18')
    rw [this]
    rfl
  have hout1 : ∀ h, h < 1 ∨ 18 < h → (passOne emptyAssignments ts allHoles).1 h = [] := by
    intro h hh
    have hnm : h ∉ allHoles := by
      rw [allHoles, List.mem_range'_1]
      omega
    rw [hunch h hnm]
    rfl
  have hlen1 : ∀ h, ((passOne emptyAssignments ts allHoles).1 h).length ≤ 1 := by
    intro h
    by_cases hb : 1 ≤ h ∧ h ≤ 18
    · rw [hchar1 h hb.1 hb.2]
      exact List.length_take_le 1 _
    · rw [hout1 h (by omega)]
      simp
  have hperm1' : List.Perm (assignedList (passOne emptyAssignments ts allHoles).1)
      (ts.take 18) := by
    have he : assignedList emptyAssignments = [] := rfl
    rw [he] at hperm1
    simpa using hperm1
  have hfr2 : ∀ t ∈ (passOne emptyAssignments ts allHoles).2,
      t ≠ 0 ∧ isAssignedAnywhere (passOne emptyAssignments ts allHoles).1 t = false := by
    rw [e2]
    intro t htin
    have htts : t ∈ ts := List.mem_of_mem_drop htin
    refine ⟨h0 t htts, ?_⟩
    rw [isAssignedAnywhere_false]
    intro h hh hmem
    have h1 : t ∈ assignedList (passOne emptyAssignments ts allHoles).1 :=
      mem_assignedList.mpr ⟨h, hh, hmem⟩
    have h2 : t ∈ ts.take 18 := hperm1'.mem_iff.mp h1
    exact List.disjoint_take_drop hnd (le_refl 18) h2 htin
  obtain ⟨f2, hunch2, hchar2, hperm2⟩ :=
    passTwo_spec allHoles (passOne emptyAssignments ts allHoles).2
      (passOne emptyAssignments ts allHoles).1 (by decide)
      (by
        intro h hh
        rw [allHoles, List.mem_range'_1] at hh
        omega)
      (by
        rw [e2]
        exact List.Nodup.sublist (List.drop_sublist 18 ts) hnd)
      hfr2
  have hfilt : allHoles.filter (fun h => decide (h ∈ doubleStackedHoles ∧
      ((passOne emptyAssignments ts allHoles).1 h).length < 2)) = doubleStackedHoles := by
    have hcongr : ∀ h ∈ allHoles,
        (decide (h ∈ doubleStackedHoles ∧
          ((passOne emptyAssignments ts allHoles).1 h).length < 2)) =
        decide (h ∈ doubleStackedHoles) := by
      intro h _
      have hl2 : ((passOne emptyAssignments ts allHoles).1 h).length < 2 :=
        Nat.lt_of_le_of_lt (hlen1 h) (by omega)
      rw [decide_eq_decide]
      exact ⟨And.left, fun hm => ⟨hm, hl2⟩⟩
    rw [List.filter_congr hcongr]
    decide
  rw [hfilt] at hunch2 hchar2 hperm2
  have hdsh10 : doubleStackedHoles.length = 10 := rfl
  have hdshb : ∀ h ∈ doubleStackedHoles, 1 ≤ h ∧ h ≤ 18 := by decide
  refine ⟨?_, ?_, ?_, ?_⟩
  · rw [e2]
    have hstep := hperm2.trans (List.Perm.append_right _ hperm1')
    rw [e2, hdsh10] at hstep
    have := hstep.trans (List.Perm.of_eq (List.take_add ts 18 10).symm)
    simpa using this
  · intro h h1 h18' hnot
    rw [hunch2 h hnot]
    exact hchar1 h h1 h18'
  · intro j h hget
    have hhd : h ∈ doubleStackedHoles := List.get?_mem hget
    have hb := hdshb h hhd
    rw [hchar2 j h hget, hchar1 h hb.1 hb.2, e2]
  · intro h hh
    have hnot : h ∉ doubleStackedHoles := fun hm => by
      have := hdshb h hm
      omega
    rw [hunch2 h hnot]
    exact hout1 h hh

/-- `autoAssignTeams` clears the sheet and runs the two passes over the full
team list. -/
theorem autoAssignTeams_eq (teams : List Team) (a0 : Nat → List Nat) :
    autoAssignTeams teams a0 =
      (passTwo (passOne emptyAssignments (teams.map Team.id) allHoles).1
        (passOne emptyAssignments (teams.map Team.id) allHoles).2 allHoles).1 := by
  unfold autoAssignTeams
  simp only [getUnassignedTeams_empty]

/-- `randomizeTeamAssignments` is `autoAssignTeams` on the shuffled team
list. -/
theorem randomize_eq_auto (cs : List Nat) (teams : List Team) (a0 : Nat → List Nat) :
    randomizeTeamAssignments cs teams a0 = autoAssignTeams (fyShuffle cs teams) a0 := by
  unfold randomizeTeamAssignments autoAssignTeams
  simp only [getUnassignedTeams_empty]

/-- C5.  Both bulk assignment operations first clear the sheet (the result
ignores the previous assignments entirely), then place exactly
`min(teamCount, 28)` teams with no id on two holes: pass 1 puts team `h-1`
(in list order) on hole `h` for holes 1..18, pass 2 puts teams 18..27 on
the double-stacked holes in hole order.  `autoAssignTeams` is this
deterministic function of the team order, and `randomizeTeamAssignments` is
the same two-pass function applied to the Fisher-Yates shuffle of the team
list (a permutation for every draw sequence). -/
theorem c5_two_pass_assignments (teams : List Team) (a0 a0' : Nat → List Nat) (cs : List Nat)
    (hnd : (teams.map Team.id).Nodup) (h0 : ∀ T ∈ teams, T.id ≠ 0) :
    autoAssignTeams teams a0 = autoAssignTeams teams a0' ∧
    (assignedList (autoAssignTeams teams a0)).length = min teams.length 28 ∧
    (assignedList (autoAssignTeams teams a0)).Nodup ∧
    (∀ t ∈ assignedList (autoAssignTeams teams a0), t ∈ teams.map Team.id) ∧
    (∀ h, 1 ≤ h → h ≤ 18 → h ∉ doubleStackedHoles →
      autoAssignTeams teams a0 h = ((teams.map Team.id).drop (h - 1)).take 1) ∧
    (∀ (j h : Nat), doubleStackedHoles.get? j = some h →
      autoAssignTeams teams a0 h = ((teams.map Team.id).drop (h - 1)).take 1 ++
        (((teams.map Team.id).drop 18).drop j).take 1) ∧
    randomizeTeamAssignments cs teams a0 = autoAssignTeams (fyShuffle cs teams) a0 ∧
    List.Perm (fyShuffle cs teams) teams ∧
    (assignedList (randomizeTeamAssignments cs teams a0)).length = min teams.length 28 ∧
    (assignedList (randomizeTeamAssignments cs teams a0)).Nodup := by
  have hids0 : ∀ t ∈ teams.map Team.id, t ≠ 0 := by
    intro t ht
    obtain ⟨T, hT, rfl⟩ := List.mem_map.mp ht
    exact h0 T hT
  obtain ⟨hperm, hnon, hdbl, _⟩ := twoPass_spec (teams.map Team.id) hnd hids0
  have he := autoAssignTeams_eq teams a0
  have hlenteams : (teams.map Team.id).length = teams.length := List.length_map _ _
  have hpermS2 : List.Perm ((fyShuffle cs teams).map Team.id) (teams.map Team.id) :=
    (fyShuffle_perm cs teams).map Team.id
  have hndS : ((fyShuffle cs teams).map Team.id).Nodup := hpermS2.nodup_iff.mpr hnd
  have h0S : ∀ t ∈ (fyShuffle cs teams).map Team.id, t ≠ 0 :=
    fun t ht => hids0 t (hpermS2.subset ht)
  obtain ⟨hpermS, _, _, _⟩ := twoPass_spec ((fyShuffle cs teams).map Team.id) hndS h0S
  have heS : randomizeTeamAssignments cs teams a0 =
      (passTwo (passOne emptyAssignments ((fyShuffle cs teams).map Team.id) allHoles).1
        (passOne emptyAssignments ((fyShuffle cs teams).map Team.id) allHoles).2
        allHoles).1 := by
    rw [randomize_eq_auto, autoAssignTeams_eq]
  refine ⟨by rw [autoAssignTeams_eq teams a0, autoAssignTeams_eq teams a0'],
    ?_, ?_, ?_, ?_, ?_, randomize_eq_auto cs teams a0, fyShuffle_perm cs teams, ?_, ?_⟩
  · rw [he, hperm.length_eq, List.length_take, hlenteams, Nat.min_comm]
  · rw [he]
    exact hperm.nodup_iff.mpr (List.Nodup.sublist (List.take_sublist 28 _) hnd)
  · intro t ht
    rw [he] at ht
    exact List.take_subset 28 _ (hperm.subset ht)
  · intro h h1 h18 hn
    rw [he]
    exact hnon h h1 h18 hn
  · intro j h hget
    rw [he]
    exact hdbl j h hget
  · rw [heS, hpermS.length_eq, List.length_take, List.length_map,
      (fyShuffle_perm cs teams).length_eq, Nat.min_comm]
  · rw [heS]
    exact hpermS.nodup_iff.mpr (List.Nodup.sublist (List.take_sublist 28 _) hndS)

/-- C5 witness: two teams are both assigned by the automatic pass. -/
theorem c5_witness :
    (assignedList (autoAssignTeams
      [{ id := 1, members := [], totalHandicap := 0 },
       { id := 2, members := [], totalHandicap := 0 }] emptyAssignments)).length =
      min 2 28 :=
  (c5_two_pass_assignments
    [{ id := 1, members := [], totalHandicap := 0 },
     { id := 2, members := [], totalHandicap := 0 }]
    emptyAssignments emptyAssignments [] (by decide) (by decide)).2.1

/-- The balancing scan with a running best `(bj, bd)`: the result stays at
most `bd`, bounds every scanned candidate from below, and is either the
running best kept or the earliest strict improvement attaining the
minimum. -/
theorem bestAux_acc (P A T : ℚ) (R : Nat) :
    ∀ (l : List Player) (j0 bj : Nat) (bd : ℚ),
    ∃ (rj : Nat) (rd : ℚ), bestAux P A T R l j0 (some (bj, bd)) = some (rj, rd) ∧
      rd ≤ bd ∧
      (∀ (k : Nat) (pk : Player), l.get? k = some pk →
        rd ≤ |P + getNumericHandicap pk + (R : ℚ) * A - T|) ∧
      ((rj = bj ∧ rd = bd) ∨
       (∃ (k : Nat) (pk : Player), l.get? k = some pk ∧ rj = j0 + k ∧
         rd = |P + getNumericHandicap pk + (R : ℚ) * A - T| ∧ rd < bd ∧
         (∀ (m : Nat) (pm : Player), m < k → l.get? m = some pm →
           rd < |P + getNumericHandicap pm + (R : ℚ) * A - T|))) := by
  intro l
  induction l with
  | nil =>
    intro j0 bj bd
    exact ⟨bj, bd, rfl, le_refl bd, fun k pk hk => by simp at hk, Or.inl ⟨rfl, rfl⟩⟩
  | cons p rest ih =>
    intro j0 bj bd
    by_cases hlt : |P + getNumericHandicap p + (R : ℚ) * A - T| < bd
    · obtain ⟨rj, rd, heq, hle, hmin, hcase⟩ := ih (j0 + 1) j0
        (|P + getNumericHandicap p + (R : ℚ) * A - T|)
      refine ⟨rj, rd, ?_, hle.trans hlt.le, ?_, ?_⟩
      · simp only [bestAux]
        rw [if_pos hlt]
        exact heq
      · intro k pk hk
        cases k with
        | zero =>
          rw [List.get?_cons_zero] at hk
          injection hk with hk
          subst hk
          exact hle
        | succ k' =>
          rw [List.get?_cons_succ] at hk
          exact hmin k' pk hk
      · rcases hcase with ⟨hrj, hrd⟩ | ⟨k', pk, hget, hrj, hrd, hlt', hbefore⟩
        · refine Or.inr ⟨0, p, List.get?_cons_zero ▸ rfl, by omega, by rw [hrd], ?_, ?_⟩
          · rw [hrd]
            exact hlt
          · intro m pm hm
            omega
        · refine Or.inr ⟨k' + 1, pk, by rw [List.get?_cons_succ]; exact hget, by omega, hrd,
            hlt'.trans hlt, ?_⟩
          intro m pm hm hgm
          cases m with
          | zero =>
            rw [List.get?_cons_zero] at hgm
            injection hgm with hgm
            subst hgm
            exact hlt'
          | succ m' =>
            rw [List.get?_cons_succ] at hgm
            exact hbefore m' pm (by omega) hgm
    · obtain ⟨rj, rd, heq, hle, hmin, hcase⟩ := ih (j0 + 1) bj bd
      refine ⟨rj, rd, ?_, hle, ?_, ?_⟩
      · simp only [bestAux]
        rw [if_neg hlt]
        exact heq
      · intro k pk hk
        cases k with
        | zero =>
          rw [List.get?_cons_zero] at hk
          injection hk with hk
          subst hk
          exact hle.trans (le_of_not_lt hlt)
        | succ k' =>
          rw [List.get?_cons_succ] at hk
          exact hmin k' pk hk
      · rcases hcase with hkeep | ⟨k', pk, hget, hrj, hrd, hlt', hbefore⟩
        · exact Or.inl hkeep
        · refine Or.inr ⟨k' + 1, pk, by rw [List.get?_cons_succ]; exact hget, by omega, hrd,
            hlt', ?_⟩
          intro m pm hm hgm
          cases m with
          | zero =>
            rw [List.get?_cons_zero] at hgm
            injection hgm with hgm
            subst hgm
            exact hlt'.trans_le (le_of_not_lt hlt)
          | succ m' =>
            rw [List.get?_cons_succ] at hgm
            exact hbefore m' pm (by omega) hgm

/-- Starting from `minDifference = Infinity` (the `none` accumulator) the
balancing scan of a nonempty pool returns the first index attaining the
minimal difference. -/
theorem bestAux_none_spec (P A T : ℚ) (R : Nat) (p : Player) (rest : List Player) :
    ∃ (j : Nat) (pj : Player),
      bestAux P A T R (p :: rest) 0 none =
        some (j, |P + getNumericHandicap pj + (R : ℚ) * A - T|) ∧
      (p :: rest).get? j = some pj ∧
      (∀ (i : Nat) (pi : Player), (p :: rest).get? i = some pi →
        |P + getNumericHandicap pj + (R : ℚ) * A - T| ≤
          |P + getNumericHandicap pi + (R : ℚ) * A - T|) ∧
      (∀ (i : Nat) (pi : Player), i < j → (p :: rest).get? i = some pi →
        |P + getNumericHandicap pj + (R : ℚ) * A - T| <
          |P + getNumericHandicap pi + (R : ℚ) * A - T|) := by
  obtain ⟨rj, rd, heq, hle, hmin, hcase⟩ :=
    bestAux_acc P A T R rest 1 0 (|P + getNumericHandicap p + (R : ℚ) * A - T|)
  have heq0 : bestAux P A T R (p :: rest) 0 none = some (rj, rd) := by
    simp only [bestAux]
    exact heq
  rcases hcase with ⟨hrj, hrd⟩ | ⟨k, pk, hget, hrj, hrd, hlt, hbefore⟩
  · refine ⟨0, p, by rw [heq0, hrj, hrd], List.get?_cons_zero, ?_, ?_⟩
    · intro i pi hi
      cases i with
      | zero =>
        rw [List.get?_cons_zero] at hi
        injection hi with hi
        subst hi
        exact le_refl _
      | succ i' =>
        rw [List.get?_cons_succ] at hi
        have := hmin i' pi hi
        rw [hrd] at this
        exact this
    · intro i pi hi
      omega
  · refine ⟨1 + k, pk, by rw [heq0, hrj, hrd], ?_, ?_, ?_⟩
    · have : 1 + k = k + 1 := by omega
      rw [this, List.get?_cons_succ]
      exact hget
    · intro i pi hi
      rw [← hrd]
      cases i with
      | zero =>
        rw [List.get?_cons_zero] at hi
        injection hi with hi
        subst hi
        exact hlt.le
      | succ i' =>
        rw [List.get?_cons_succ] at hi
        exact hmin i' pi hi
    · intro i pi hij hi
      rw [← hrd]
      cases i with
      | zero =>
        rw [List.get?_cons_zero] at hi
        injection hi with hi
        subst hi
        exact hlt
      | succ i' =>
        rw [List.get?_cons_succ] at hi
        exact hbefore i' pi (by omega) hi

/-- C3.  A draft pick from an exhausted pool fails returning the state
untouched; with balancing off or in the D round the chosen player is the
pool entry at the uniform draw (`r % |pool|`, the model of
`Math.floor(Math.random() * pool.length)`); otherwise the chosen player is
the first pool entry minimising the predicted distance
`|partialHandicap + candidate + remainingRounds * avgPlayerHandicap -
targetTeamHandicap|`. -/
theorem c3_draft_pick_rule (r : Nat) (st : AppState) (s : DraftState) (g : GLetter)
    (dtd : DraftTeamData)
    (hs : st.interactiveDraftState = some s)
    (hg : draftOrder.get? s.currentRoundIndex = some g)
    (hdtd : s.draftedTeamsData.get? s.currentTeamIndex = some dtd) :
    (s.avail g = [] → makeInteractiveDraftPick r st = (st, none)) ∧
    ((st.settings.balanceTeams = false ∨ g = GLetter.D) → s.avail g ≠ [] →
      ∃ info : PickInfo, (makeInteractiveDraftPick r st).2 = some info ∧
        (s.avail g).get? (r % (s.avail g).length) = some info.player) ∧
    (st.settings.balanceTeams = true → g ≠ GLetter.D → s.avail g ≠ [] →
      ∃ (j : Nat) (info : PickInfo), (makeInteractiveDraftPick r st).2 = some info ∧
        (s.avail g).get? j = some info.player ∧
        (∀ (i : Nat) (pi : Player), (s.avail g).get? i = some pi →
          pickDiff s dtd info.player ≤ pickDiff s dtd pi) ∧
        (∀ (i : Nat) (pi : Player), i < j → (s.avail g).get? i = some pi →
          pickDiff s dtd info.player < pickDiff s dtd pi)) := by
  refine ⟨?_, ?_, ?_⟩
  · intro hpool
    unfold makeInteractiveDraftPick
    split
    · rfl
    next s' heq =>
      rw [hs] at heq
      injection heq with heq
      subst heq
      split
      next g' dtd' heq1 heq2 =>
        rw [hg] at heq1
        injection heq1 with heq1
        subst heq1
        rw [hdtd] at heq2
        injection heq2 with heq2
        subst heq2
        simp [hpool]
      · rfl
  · intro hbal hpool
    have hlen0 : (s.avail g).length ≠ 0 := fun e => hpool (List.length_eq_zero.mp e)
    have hcond : ¬(st.settings.balanceTeams = true ∧ g ≠ GLetter.D) := by
      rcases hbal with hb | hD
      · rintro ⟨h1, _⟩
        rw [hb] at h1
        cases h1
      · rintro ⟨_, h2⟩
        exact h2 hD
    have hmod : r % (s.avail g).length < (s.avail g).length :=
      Nat.mod_lt _ (Nat.pos_of_ne_zero hlen0)
    obtain ⟨chosen, hchosen⟩ : ∃ c, (s.avail g).get? (r % (s.avail g).length) = some c :=
      ⟨_, List.get?_eq_get hmod⟩
    unfold makeInteractiveDraftPick
    split
    next heq =>
      rw [hs] at heq
      simp at heq
    next s' heq =>
      rw [hs] at heq
      injection heq with heq
      subst heq
      split
      next g' dtd' heq1 heq2 =>
        rw [hg] at heq1
        injection heq1 with heq1
        subst heq1
        rw [hdtd] at heq2
        injection heq2 with heq2
        subst heq2
        rw [if_neg hlen0]
        simp only [if_neg hcond, hchosen]
        exact ⟨_, rfl, rfl⟩
      next hno =>
        exact (hno g dtd hg hdtd).elim
  · intro hbal hD hpool
    obtain ⟨p0, rest, hav⟩ := List.exists_cons_of_ne_nil hpool
    obtain ⟨j, pj, hbest, hgetj, hminj, hstrictj⟩ :=
      bestAux_none_spec dtd.partialHandicap s.avgPlayerHandicap s.targetTeamHandicap
        (draftOrder.length - (s.currentRoundIndex + 1)) p0 rest
    have hlen0 : (s.avail g).length ≠ 0 := by
      rw [hav]
      simp
    have hcond : st.settings.balanceTeams = true ∧ g ≠ GLetter.D := ⟨hbal, hD⟩
    unfold makeInteractiveDraftPick
    split
    next heq =>
      rw [hs] at heq
      simp at heq
    next s' heq =>
      rw [hs] at heq
      injection heq with heq
      subst heq
      split
      next g' dtd' heq1 heq2 =>
        rw [hg] at heq1
        injection heq1 with heq1
        subst heq1
        rw [hdtd] at heq2
        injection heq2 with heq2
        subst heq2
        rw [if_neg hlen0]
        simp only [hav, if_pos hcond, hbest, hgetj]
        refine ⟨j, _, rfl, ?_, ?_, ?_⟩
        · rw [hgetj]
        · intro i pi hi
          exact hminj i pi hi
        · intro i pi hij hi
          exact hstrictj i pi hij hi
      next hno =>
        exact (hno g dtd hg hdtd).elim

/-- C3 witness: the D-round pick draws the pool entry at the random index. -/
theorem c3_witness :
    ∃ info : PickInfo, (makeInteractiveDraftPick 0 c3state).2 = some info ∧
      (c3draft.avail GLetter.D).get? (0 % (c3draft.avail GLetter.D).length) =
        some info.player :=
  (c3_draft_pick_rule 0 c3state c3draft GLetter.D
    { members := [none, none, none, none], partialHandicap := 0 }
    rfl rfl rfl).2.1 (Or.inl rfl) (by decide)


/-- `setAvail` leaves the team count unchanged. -/
theorem setAvail_numTeams (s : DraftState) (g : GLetter) (l : List Player) :
    (s.setAvail g l).numTeams = s.numTeams := by
  cases g <;> rfl

/-- `setAvail` leaves the team cursor unchanged. -/
theorem setAvail_currentTeamIndex (s : DraftState) (g : GLetter) (l : List Player) :
    (s.setAvail g l).currentTeamIndex = s.currentTeamIndex := by
  cases g <;> rfl

/-- `setAvail` leaves the round cursor unchanged. -/
theorem setAvail_currentRoundIndex (s : DraftState) (g : GLetter) (l : List Player) :
    (s.setAvail g l).currentRoundIndex = s.currentRoundIndex := by
  cases g <;> rfl

/-- `setAvail` leaves the drafted-team data unchanged. -/
theorem setAvail_draftedTeamsData (s : DraftState) (g : GLetter) (l : List Player) :
    (s.setAvail g l).draftedTeamsData = s.draftedTeamsData := by
  cases g <;> rfl

/-- Reading a pool after `setAvail`: the written pool at the written letter,
the old pool elsewhere. -/
theorem avail_setAvail (s : DraftState) (g : GLetter) (l : List Player) (L : GLetter) :
    (s.setAvail g l).avail L = if L = g then l else s.avail L := by
  cases g <;> cases L <;> simp [DraftState.avail, DraftState.setAvail]

/-- The draft order list realises `letterOfRound` on the four rounds. -/
theorem draftOrder_get (q : Nat) (hq : q < 4) :
    draftOrder.get? q = some (letterOfRound q) := by
  interval_cases q <;> rfl

/-- `letterOfRound` is injective on the four rounds. -/
theorem letterOfRound_inj (p q : Nat) (hp : p < 4) (hq : q < 4)
    (h : letterOfRound p = letterOfRound q) : p = q := by
  interval_cases p <;> interval_cases q <;> simp_all [letterOfRound]

/-- A slot entry is unchanged at team indices other than the one being set. -/
theorem slotAt_set_ne (data : List DraftTeamData) (t : Nat) (d2 : DraftTeamData)
    (slot i : Nat) (h : t ≠ i) :
    slotAt (data.set t d2) slot i = slotAt data slot i := by
  unfold slotAt
  rw [List.get?_set_ne _ _ h]

/-- A slot entry at the team index being set reads from the new record. -/
theorem slotAt_set_self (data : List DraftTeamData) (t : Nat) (d2 : DraftTeamData)
    (slot : Nat) (h : t < data.length) :
    slotAt (data.set t d2) slot t = d2.members.get? slot := by
  unfold slotAt
  rw [List.get?_set_eq_of_lt _ h]

/-- `slotMembersIdx` only looks at the slot entries below its count. -/
theorem slotMembersIdx_congr (d1 d2 : List DraftTeamData) (slot : Nat) :
    ∀ c : Nat, (∀ i, i < c → slotAt d2 slot i = slotAt d1 slot i) →
      slotMembersIdx d2 slot c = slotMembersIdx d1 slot c := by
  intro c
  induction c with
  | zero => intro _; rfl
  | succ c ih =>
    intro h
    unfold slotMembersIdx
    rw [h c (Nat.lt_succ_self c), ih (fun i hi => h i (Nat.lt_succ_of_lt hi))]

/-- Extending the count over a filled slot appends that slot's player. -/
theorem slotMembersIdx_snoc (data : List DraftTeamData) (slot c : Nat) (pl : Player)
    (h : slotAt data slot c = some (some pl)) :
    slotMembersIdx data slot (c + 1) = slotMembersIdx data slot c ++ [pl] := by
  simp only [slotMembersIdx]
  rw [h]

/-- When all counted slots are filled, `slotMembersIdx` has exactly the count
as its length. -/
theorem slotMembersIdx_length (data : List DraftTeamData) (slot : Nat) :
    ∀ c : Nat, (∀ i, i < c → ∃ pl, slotAt data slot i = some (some pl)) →
      (slotMembersIdx data slot c).length = c := by
  intro c
  induction c with
  | zero => intro _; rfl
  | succ c ih =>
    intro h
    obtain ⟨pl, hpl⟩ := h c (Nat.lt_succ_self c)
    rw [slotMembersIdx_snoc data slot c pl hpl, List.length_append,
      ih (fun i hi => h i (Nat.lt_succ_of_lt hi))]
    rfl

/-- A filled slot below the count contributes its player to `slotMembersIdx`. -/
theorem mem_slotMembersIdx (data : List DraftTeamData) (slot : Nat) :
    ∀ c i pl, i < c → slotAt data slot i = some (some pl) →
      pl ∈ slotMembersIdx data slot c := by
  intro c
  induction c with
  | zero => intro i pl hi _; exact absurd hi (Nat.not_lt_zero i)
  | succ c ih =>
    intro i pl hi h
    rcases Nat.lt_succ_iff_lt_or_eq.mp hi with hlt | heq
    · exact List.mem_append_left _ (ih i pl hlt h)
    · subst heq
      rw [slotMembersIdx_snoc data slot i pl h]
      exact List.mem_append_right _ (List.mem_singleton_self pl)

/-- A list is a permutation of any of its entries consed onto its removal. -/
theorem perm_cons_eraseIdx {α : Type} :
    ∀ (l : List α) (i : Nat) (a : α), l.get? i = some a →
      List.Perm l (a :: l.eraseIdx i) := by
  intro l
  induction l with
  | nil => intro i a h; simp at h
  | cons x xs ih =>
    intro i a h
    cases i with
    | zero =>
      rw [List.get?_cons_zero] at h
      injection h with h
      subst h
      exact List.Perm.refl _
    | succ j =>
      rw [List.get?_cons_succ] at h
      exact ((ih j a h).cons x).trans (List.Perm.swap a x _)

/-- The invariant-preserving core of a successful pick: the updated drafted
data satisfies the per-round conditions with the current round's count
advanced by one and the current round's pool shrunk by the chosen player. -/
theorem step_core (G : Groups) (N : Nat) (s : DraftState) (dtd dtd2 : DraftTeamData)
    (chosen : Player) (cIdx : Nat) (data2 : List DraftTeamData)
    (hinv : DraftInv G N s) (hq : s.currentRoundIndex < 4) (ht : s.currentTeamIndex < N)
    (hdtd : s.draftedTeamsData.get? s.currentTeamIndex = some dtd)
    (hget : (s.avail (letterOfRound s.currentRoundIndex)).get? cIdx = some chosen)
    (hdtd2 : dtd2 =
      { members := dtd.members.set (draftOrder.length - 1 - s.currentRoundIndex) (some chosen)
        partialHandicap := dtd.partialHandicap + getNumericHandicap chosen })
    (hdata2 : data2 = s.draftedTeamsData.set s.currentTeamIndex dtd2) :
    data2.length = N ∧
    (∀ d ∈ data2, d.members.length = 4) ∧
    (∀ p, p < 4 →
      (∀ i, i < (if p = s.currentRoundIndex then s.currentTeamIndex + 1
            else pickedCount N s.currentRoundIndex s.currentTeamIndex p) →
        ∃ pl, slotAt data2 (3 - p) i = some (some pl)) ∧
      (∀ i, (if p = s.currentRoundIndex then s.currentTeamIndex + 1
            else pickedCount N s.currentRoundIndex s.currentTeamIndex p) ≤ i → i < N →
        slotAt data2 (3 - p) i = some none) ∧
      List.Perm
        (slotMembersIdx data2 (3 - p)
            (if p = s.currentRoundIndex then s.currentTeamIndex + 1
             else pickedCount N s.currentRoundIndex s.currentTeamIndex p) ++
          (if letterOfRound p = letterOfRound s.currentRoundIndex then
              (s.avail (letterOfRound s.currentRoundIndex)).eraseIdx cIdx
            else s.avail (letterOfRound p)))
        (G.ofLetter (letterOfRound p))) := by
  obtain ⟨hN, hlen, hcur, hmem4, hper⟩ := hinv
  have hmi : draftOrder.length - 1 - s.currentRoundIndex = 3 - s.currentRoundIndex := rfl
  rw [hmi] at hdtd2
  have ht' : s.currentTeamIndex < s.draftedTeamsData.length := by rw [hlen]; exact ht
  have hdm4 : dtd.members.length = 4 := hmem4 dtd (List.get?_mem hdtd)
  have hdm4' : dtd2.members.length = 4 := by
    rw [hdtd2]
    show (dtd.members.set (3 - s.currentRoundIndex) (some chosen)).length = 4
    rw [List.length_set]
    exact hdm4
  have hslot_t : slotAt data2 (3 - s.currentRoundIndex) s.currentTeamIndex =
      some (some chosen) := by
    rw [hdata2, slotAt_set_self _ _ _ _ ht', hdtd2]
    show (dtd.members.set (3 - s.currentRoundIndex) (some chosen)).get?
        (3 - s.currentRoundIndex) = some (some chosen)
    rw [List.get?_set_eq_of_lt _ (by omega)]
  refine ⟨?_, ?_, ?_⟩
  · rw [hdata2, List.length_set]; exact hlen
  · intro d hd
    rw [hdata2] at hd
    rcases List.mem_or_eq_of_mem_set hd with hd | hd
    · exact hmem4 d hd
    · rw [hd]; exact hdm4'
  · intro p hp
    have hcq : pickedCount N s.currentRoundIndex s.currentTeamIndex s.currentRoundIndex =
        s.currentTeamIndex := by
      unfold pickedCount; split_ifs <;> omega
    by_cases hpq : p = s.currentRoundIndex
    · obtain ⟨hfq, heq, hpmq⟩ := hper p hp
      subst hpq
      rw [hcq] at hfq heq hpmq
      simp only [eq_self_iff_true, if_true]
      refine ⟨?_, ?_, ?_⟩
      · intro i hi
        rcases Nat.lt_succ_iff_lt_or_eq.mp hi with hlt | hieq
        · obtain ⟨pl, hpl⟩ := hfq i hlt
          refine ⟨pl, ?_⟩
          rw [hdata2, slotAt_set_ne _ _ _ _ _ (by omega)]
          exact hpl
        · subst hieq
          exact ⟨chosen, hslot_t⟩
      · intro i h1 h2
        rw [hdata2, slotAt_set_ne _ _ _ _ _ (by omega)]
        exact heq i (by omega) h2
      · have hlow : ∀ i, i < s.currentTeamIndex →
            slotAt data2 (3 - s.currentRoundIndex) i =
              slotAt s.draftedTeamsData (3 - s.currentRoundIndex) i := by
          intro i hi
          rw [hdata2, slotAt_set_ne _ _ _ _ _ (by omega)]
        rw [slotMembersIdx_snoc data2 (3 - s.currentRoundIndex) s.currentTeamIndex chosen
            hslot_t,
          slotMembersIdx_congr s.draftedTeamsData data2 (3 - s.currentRoundIndex)
            s.currentTeamIndex hlow]
        have hpool : List.Perm (s.avail (letterOfRound s.currentRoundIndex))
            (chosen :: (s.avail (letterOfRound s.currentRoundIndex)).eraseIdx cIdx) :=
          perm_cons_eraseIdx _ _ _ hget
        have hshift :
            slotMembersIdx s.draftedTeamsData (3 - s.currentRoundIndex) s.currentTeamIndex ++
                [chosen] ++
              (s.avail (letterOfRound s.currentRoundIndex)).eraseIdx cIdx =
            slotMembersIdx s.draftedTeamsData (3 - s.currentRoundIndex) s.currentTeamIndex ++
              (chosen :: (s.avail (letterOfRound s.currentRoundIndex)).eraseIdx cIdx) := by
          rw [List.append_assoc]
          rfl
        rw [hshift]
        exact ((List.Perm.append_left _ hpool.symm).trans hpmq)
    · obtain ⟨hfp, hep, hpmp⟩ := hper p hp
      have hL : letterOfRound p ≠ letterOfRound s.currentRoundIndex := fun h =>
        hpq (letterOfRound_inj p s.currentRoundIndex hp hq h)
      rw [if_neg hpq, if_neg hL]
      have hagree : ∀ i, slotAt data2 (3 - p) i = slotAt s.draftedTeamsData (3 - p) i := by
        intro i
        by_cases hit : s.currentTeamIndex = i
        · subst hit
          rw [hdata2, slotAt_set_self _ _ _ _ ht', hdtd2]
          show (dtd.members.set (3 - s.currentRoundIndex) (some chosen)).get? (3 - p) = _
          rw [List.get?_set_ne _ _ (by omega)]
          unfold slotAt
          rw [hdtd]
        · rw [hdata2, slotAt_set_ne _ _ _ _ _ hit]
      refine ⟨?_, ?_, ?_⟩
      · intro i hi
        obtain ⟨pl, hpl⟩ := hfp i hi
        exact ⟨pl, by rw [hagree]; exact hpl⟩
      · intro i h1 h2
        rw [hagree]
        exact hep i h1 h2
      · rw [slotMembersIdx_congr s.draftedTeamsData data2 (3 - p) _ (fun i _ => hagree i)]
        exact hpmp

/-- A successful pick preserves the draft invariant and advances the pick
count by one, whether or not the team cursor rolls over. -/
theorem step_inv (G : Groups) (N : Nat) (s : DraftState) (dtd dtd2 : DraftTeamData)
    (chosen : Player) (cIdx : Nat) (s1 s2 s3 : DraftState)
    (hinv : DraftInv G N s) (hq : s.currentRoundIndex < 4) (ht : s.currentTeamIndex < N)
    (hdtd : s.draftedTeamsData.get? s.currentTeamIndex = some dtd)
    (hget : (s.avail (letterOfRound s.currentRoundIndex)).get? cIdx = some chosen)
    (hdtd2 : dtd2 =
      { members := dtd.members.set (draftOrder.length - 1 - s.currentRoundIndex) (some chosen)
        partialHandicap := dtd.partialHandicap + getNumericHandicap chosen })
    (hs1 : s1 = s.setAvail (letterOfRound s.currentRoundIndex)
        ((s.avail (letterOfRound s.currentRoundIndex)).eraseIdx cIdx))
    (hs2 : s2 = { s1 with draftedTeamsData := s1.draftedTeamsData.set s.currentTeamIndex dtd2 })
    (hs3 : s3 = if s.numTeams ≤ s.currentTeamIndex + 1 then
        { s2 with currentTeamIndex := 0, currentRoundIndex := s.currentRoundIndex + 1 }
      else { s2 with currentTeamIndex := s.currentTeamIndex + 1 }) :
    DraftInv G N s3 ∧
    N * s3.currentRoundIndex + s3.currentTeamIndex =
      N * s.currentRoundIndex + s.currentTeamIndex + 1 := by
  obtain ⟨hN, hlen, hcur, hmem4, hper⟩ := hinv
  obtain ⟨hlen2, hmem42, hper2⟩ :=
    step_core G N s dtd dtd2 chosen cIdx (s.draftedTeamsData.set s.currentTeamIndex dtd2)
      ⟨hN, hlen, hcur, hmem4, hper⟩ hq ht hdtd hget hdtd2 rfl
  have e2data : s2.draftedTeamsData = s.draftedTeamsData.set s.currentTeamIndex dtd2 := by
    rw [hs2]
    show s1.draftedTeamsData.set s.currentTeamIndex dtd2 = _
    rw [hs1, setAvail_draftedTeamsData]
  have e2N : s2.numTeams = N := by
    rw [hs2]
    show s1.numTeams = N
    rw [hs1, setAvail_numTeams, hN]
  have e2q : s2.currentRoundIndex = s.currentRoundIndex := by
    rw [hs2]
    show s1.currentRoundIndex = _
    rw [hs1, setAvail_currentRoundIndex]
  have e2avail : ∀ L, s2.avail L =
      if L = letterOfRound s.currentRoundIndex then
        (s.avail (letterOfRound s.currentRoundIndex)).eraseIdx cIdx
      else s.avail L := by
    intro L
    have h0 : s2.avail L = s1.avail L := by rw [hs2]; cases L <;> rfl
    rw [h0, hs1, avail_setAvail]
  by_cases hroll : s.numTeams ≤ s.currentTeamIndex + 1
  · rw [if_pos hroll] at hs3
    rw [hN] at hroll
    have htN : s.currentTeamIndex + 1 = N := by omega
    have e3q : s3.currentRoundIndex = s.currentRoundIndex + 1 := by rw [hs3]
    have e3t : s3.currentTeamIndex = 0 := by rw [hs3]
    have e3N : s3.numTeams = N := by
      rw [hs3]
      show s2.numTeams = N
      exact e2N
    have e3data : s3.draftedTeamsData = s.draftedTeamsData.set s.currentTeamIndex dtd2 := by
      rw [hs3]
      show s2.draftedTeamsData = _
      exact e2data
    have e3avail : ∀ L, s3.avail L =
        if L = letterOfRound s.currentRoundIndex then
          (s.avail (letterOfRound s.currentRoundIndex)).eraseIdx cIdx
        else s.avail L := by
      intro L
      have h0 : s3.avail L = s2.avail L := by rw [hs3]; cases L <;> rfl
      rw [h0]
      exact e2avail L
    constructor
    · refine ⟨e3N, ?_, ?_, ?_, ?_⟩
      · rw [e3data]; exact hlen2
      · rw [e3q, e3t]
        by_cases h4 : s.currentRoundIndex + 1 < 4
        · exact Or.inl ⟨h4, by omega⟩
        · exact Or.inr ⟨by omega, rfl⟩
      · rw [e3data]; exact hmem42
      · intro p hp
        have hcnt : pickedCount N s3.currentRoundIndex s3.currentTeamIndex p =
            (if p = s.currentRoundIndex then s.currentTeamIndex + 1
             else pickedCount N s.currentRoundIndex s.currentTeamIndex p) := by
          rw [e3q, e3t]
          unfold pickedCount
          split_ifs <;> omega
        obtain ⟨hf, he, hpm⟩ := hper2 p hp
        refine ⟨?_, ?_, ?_⟩
        · intro i hi
          rw [hcnt] at hi
          rw [e3data]
          exact hf i hi
        · intro i h1 h2
          rw [hcnt] at h1
          rw [e3data]
          exact he i h1 h2
        · rw [e3data, hcnt, e3avail (letterOfRound p)]
          exact hpm
    · rw [e3q, e3t, Nat.mul_succ]
      omega
  · rw [if_neg hroll] at hs3
    rw [hN] at hroll
    have e3q : s3.currentRoundIndex = s.currentRoundIndex := by
      rw [hs3]
      show s2.currentRoundIndex = _
      exact e2q
    have e3t : s3.currentTeamIndex = s.currentTeamIndex + 1 := by rw [hs3]
    have e3N : s3.numTeams = N := by
      rw [hs3]
      show s2.numTeams = N
      exact e2N
    have e3data : s3.draftedTeamsData = s.draftedTeamsData.set s.currentTeamIndex dtd2 := by
      rw [hs3]
      show s2.draftedTeamsData = _
      exact e2data
    have e3avail : ∀ L, s3.avail L =
        if L = letterOfRound s.currentRoundIndex then
          (s.avail (letterOfRound s.currentRoundIndex)).eraseIdx cIdx
        else s.avail L := by
      intro L
      have h0 : s3.avail L = s2.avail L := by rw [hs3]; cases L <;> rfl
      rw [h0]
      exact e2avail L
    constructor
    · refine ⟨e3N, ?_, ?_, ?_, ?_⟩
      · rw [e3data]; exact hlen2
      · rw [e3q, e3t]
        exact Or.inl ⟨hq, by omega⟩
      · rw [e3data]; exact hmem42
      · intro p hp
        have hcnt : pickedCount N s3.currentRoundIndex s3.currentTeamIndex p =
            (if p = s.currentRoundIndex then s.currentTeamIndex + 1
             else pickedCount N s.currentRoundIndex s.currentTeamIndex p) := by
          rw [e3q, e3t]
          unfold pickedCount
          split_ifs <;> omega
        obtain ⟨hf, he, hpm⟩ := hper2 p hp
        refine ⟨?_, ?_, ?_⟩
        · intro i hi
          rw [hcnt] at hi
          rw [e3data]
          exact hf i hi
        · intro i h1 h2
          rw [hcnt] at h1
          rw [e3data]
          exact he i h1 h2
        · rw [e3data, hcnt, e3avail (letterOfRound p)]
          exact hpm
    · rw [e3q, e3t]
      omega

/-- A pick taken mid-draft succeeds, changes only the draft state, keeps the
invariant, and advances the pick count by one. -/
theorem pick_step (G : Groups) (N : Nat) (st : AppState) (s : DraftState) (r : Nat)
    (hs : st.interactiveDraftState = some s)
    (hinv : DraftInv G N s)
    (hNle : ∀ L, N ≤ (G.ofLetter L).length)
    (hq : s.currentRoundIndex < 4) (ht : s.currentTeamIndex < N) :
    ∃ (s3 : DraftState) (info : PickInfo),
      makeInteractiveDraftPick r st = ({ st with interactiveDraftState := some s3 }, some info) ∧
      DraftInv G N s3 ∧
      N * s3.currentRoundIndex + s3.currentTeamIndex =
        N * s.currentRoundIndex + s.currentTeamIndex + 1 := by
  obtain ⟨hN, hlen, hcur, hmem4, hper⟩ := hinv
  have hg : draftOrder.get? s.currentRoundIndex = some (letterOfRound s.currentRoundIndex) :=
    draftOrder_get _ hq
  have ht' : s.currentTeamIndex < s.draftedTeamsData.length := by rw [hlen]; exact ht
  obtain ⟨dtd, hdtd⟩ : ∃ d, s.draftedTeamsData.get? s.currentTeamIndex = some d :=
    ⟨_, List.get?_eq_get ht'⟩
  have hcq : pickedCount N s.currentRoundIndex s.currentTeamIndex s.currentRoundIndex =
      s.currentTeamIndex := by
    unfold pickedCount; split_ifs <;> omega
  obtain ⟨hfq, _, hpmq⟩ := hper s.currentRoundIndex hq
  rw [hcq] at hfq hpmq
  have hidxlen : (slotMembersIdx s.draftedTeamsData (3 - s.currentRoundIndex)
      s.currentTeamIndex).length = s.currentTeamIndex :=
    slotMembersIdx_length s.draftedTeamsData (3 - s.currentRoundIndex) s.currentTeamIndex hfq
  have hlenavail : s.currentTeamIndex +
      (s.avail (letterOfRound s.currentRoundIndex)).length =
      (G.ofLetter (letterOfRound s.currentRoundIndex)).length := by
    have h1 := hpmq.length_eq
    rw [List.length_append, hidxlen] at h1
    exact h1
  have hpool0 : (s.avail (letterOfRound s.currentRoundIndex)).length ≠ 0 := by
    have h2 := hNle (letterOfRound s.currentRoundIndex)
    omega
  unfold makeInteractiveDraftPick
  split
  next heq0 =>
    rw [hs] at heq0
    simp at heq0
  next s0 heq0 =>
    rw [hs] at heq0
    injection heq0 with heq0
    subst heq0
    split
    next g' dtd' heq1 heq2 =>
      rw [hg] at heq1
      injection heq1 with heq1
      subst heq1
      rw [hdtd] at heq2
      injection heq2 with heq2
      subst heq2
      rw [if_neg hpool0]
      by_cases hbc : st.settings.balanceTeams = true ∧
          letterOfRound s.currentRoundIndex ≠ GLetter.D
      · obtain ⟨p0, rest, hav⟩ := List.exists_cons_of_ne_nil
          (show s.avail (letterOfRound s.currentRoundIndex) ≠ [] from
            fun e => hpool0 (by rw [e]; rfl))
        obtain ⟨j, pj, hbest, hgetj, _, _⟩ :=
          bestAux_none_spec dtd.partialHandicap s.avgPlayerHandicap s.targetTeamHandicap
            (draftOrder.length - (s.currentRoundIndex + 1)) p0 rest
        have hbest2 : bestAux dtd.partialHandicap s.avgPlayerHandicap s.targetTeamHandicap
            (draftOrder.length - (s.currentRoundIndex + 1))
            (s.avail (letterOfRound s.currentRoundIndex)) 0 none =
            some (j, |dtd.partialHandicap + getNumericHandicap pj +
              ((draftOrder.length - (s.currentRoundIndex + 1) : Nat) : ℚ) *
                s.avgPlayerHandicap - s.targetTeamHandicap|) := by
          rw [hav]
          exact hbest
        have hget2 : (s.avail (letterOfRound s.currentRoundIndex)).get? j = some pj := by
          rw [hav]
          exact hgetj
        simp only [if_pos hbc, hbest2, hget2]
        refine ⟨_, _, rfl, ?_⟩
        exact step_inv G N s dtd _ pj j _ _ _ ⟨hN, hlen, hcur, hmem4, hper⟩ hq ht hdtd hget2
          rfl rfl rfl rfl
      · have hmod : r % (s.avail (letterOfRound s.currentRoundIndex)).length <
            (s.avail (letterOfRound s.currentRoundIndex)).length :=
          Nat.mod_lt _ (Nat.pos_of_ne_zero hpool0)
        obtain ⟨chosen, hchosen⟩ : ∃ c,
            (s.avail (letterOfRound s.currentRoundIndex)).get?
              (r % (s.avail (letterOfRound s.currentRoundIndex)).length) = some c :=
          ⟨_, List.get?_eq_get hmod⟩
        simp only [if_neg hbc, hchosen]
        refine ⟨_, _, rfl, ?_⟩
        exact step_inv G N s dtd _ chosen _ _ _ _ ⟨hN, hlen, hcur, hmem4, hper⟩ hq ht hdtd
          hchosen rfl rfl rfl rfl
    next hno =>
      exact (hno _ dtd hg hdtd).elim

/-- Running one pick per remaining slot drives the cursors to the completed
position while keeping the invariant; only the draft state changes. -/
theorem runPicks_inv (G : Groups) (N : Nat) (hNle : ∀ L, N ≤ (G.ofLetter L).length) :
    ∀ (rs : List Nat) (st : AppState) (s : DraftState),
      st.interactiveDraftState = some s → DraftInv G N s →
      N * s.currentRoundIndex + s.currentTeamIndex + rs.length = 4 * N →
      ∃ sf : DraftState,
        runPicks rs st = some { st with interactiveDraftState := some sf } ∧
        DraftInv G N sf ∧ sf.currentRoundIndex = 4 ∧ sf.currentTeamIndex = 0 := by
  intro rs
  induction rs with
  | nil =>
    intro st s hs hinv hcnt
    simp only [List.length_nil, Nat.add_zero] at hcnt
    have hdone : s.currentRoundIndex = 4 ∧ s.currentTeamIndex = 0 := by
      rcases hinv.2.2.1 with ⟨h1, h2⟩ | ⟨h1, h2⟩
      · exfalso
        have h3 : N * s.currentRoundIndex ≤ N * 3 :=
          Nat.mul_le_mul_left N (by omega)
        omega
      · exact ⟨h1, h2⟩
    refine ⟨s, ?_, hinv, hdone.1, hdone.2⟩
    show some st = some { st with interactiveDraftState := some s }
    rw [← hs]
  | cons r rest ih =>
    intro st s hs hinv hcnt
    simp only [List.length_cons] at hcnt
    have hmid : s.currentRoundIndex < 4 ∧ s.currentTeamIndex < N := by
      rcases hinv.2.2.1 with ⟨h1, h2⟩ | ⟨h1, h2⟩
      · exact ⟨h1, h2⟩
      · exfalso
        rw [h1, h2] at hcnt
        omega
    obtain ⟨s1, info, hpick, hinv1, hcnt1⟩ :=
      pick_step G N st s r hs hinv hNle hmid.1 hmid.2
    unfold runPicks
    simp only [hpick]
    obtain ⟨sf, hrun, hinvf, hqf, htf⟩ :=
      ih { st with interactiveDraftState := some s1 } s1 rfl hinv1 (by omega)
    refine ⟨sf, ?_, hinvf, hqf, htf⟩
    rw [hrun]

/-- The freshly initialized draft state satisfies the invariant for any
balancing targets. -/
theorem replicate_get? {α : Type} (a : α) :
    ∀ (n i : Nat), i < n → (List.replicate n a).get? i = some a := by
  intro n
  induction n with
  | zero => intro i h; exact absurd h (Nat.not_lt_zero i)
  | succ n ih =>
    intro i h
    cases i with
    | zero => rfl
    | succ j => exact ih j (by omega)

/-- Every slot of the freshly initialized drafted-team data is empty. -/
theorem slotAt_replicate (n i k : Nat) (hi : i < n) (hk : k < 4) :
    slotAt (List.replicate n
      ({ members := [none, none, none, none], partialHandicap := 0 } : DraftTeamData)) k i =
      some none := by
  unfold slotAt
  rw [replicate_get? _ n i hi]
  interval_cases k <;> rfl

/-- The base draft state built by `initializeInteractiveDraft` satisfies the
invariant, whatever the balancing targets are. -/
theorem base_inv (G : Groups) (N : Nat) (tgt avg : ℚ) (hN : 0 < N) :
    DraftInv G N
      { numTeams := N
        currentTeamIndex := 0
        currentRoundIndex := 0
        availableA := G.A
        availableB := G.B
        availableC := G.C
        availableD := G.D
        draftedTeamsData :=
          List.replicate N { members := [none, none, none, none], partialHandicap := 0 }
        targetTeamHandicap := tgt
        avgPlayerHandicap := avg } := by
  refine ⟨rfl, List.length_replicate N _,
    Or.inl ⟨(by decide : (0 : Nat) < 4), hN⟩, ?_, ?_⟩
  · intro d hd
    rw [List.eq_of_mem_replicate hd]
    rfl
  · intro p hp
    have hc0 : pickedCount N 0 0 p = 0 := by
      unfold pickedCount
      split_ifs <;> omega
    have havG : ∀ L : GLetter,
        ({ numTeams := N
           currentTeamIndex := 0
           currentRoundIndex := 0
           availableA := G.A
           availableB := G.B
           availableC := G.C
           availableD := G.D
           draftedTeamsData :=
             List.replicate N { members := [none, none, none, none], partialHandicap := 0 }
           targetTeamHandicap := tgt
           avgPlayerHandicap := avg } : DraftState).avail L = G.ofLetter L := by
      intro L
      cases L <;> rfl
    refine ⟨?_, ?_, ?_⟩
    · intro i hi
      rw [hc0] at hi
      exact absurd hi (Nat.not_lt_zero i)
    · intro i _ hiN
      exact slotAt_replicate N i (3 - p) hiN (by omega)
    · rw [hc0, havG (letterOfRound p)]
      exact List.Perm.refl _

/-- Initialization succeeds exactly as the source does when every group is
nonempty, and installs an invariant-satisfying draft at cursor (0, 0). -/
theorem init_inv (st : AppState)
    (hN : 0 < min (min st.groups.A.length st.groups.B.length)
        (min st.groups.C.length st.groups.D.length)) :
    ∃ ds : DraftState,
      initializeInteractiveDraft st = ({ st with interactiveDraftState := some ds }, true) ∧
      DraftInv st.groups
        (min (min st.groups.A.length st.groups.B.length)
          (min st.groups.C.length st.groups.D.length)) ds ∧
      ds.currentRoundIndex = 0 ∧ ds.currentTeamIndex = 0 := by
  simp only [initializeInteractiveDraft]
  rw [if_neg (by omega : ¬ (min (min st.groups.A.length st.groups.B.length)
      (min st.groups.C.length st.groups.D.length) = 0))]
  refine ⟨_, rfl, ?_, ?_, ?_⟩
  · split_ifs <;> exact base_inv st.groups _ _ _ hN
  · split_ifs <;> rfl
  · split_ifs <;> rfl

/-- A four-slot member list with every slot filled is literally a list of
four `some`s. -/
theorem members_four (l : List (Option Player)) (hl : l.length = 4)
    (hf : ∀ k, k < 4 → ∃ x, l.get? k = some (some x)) :
    ∃ a b c d : Player, l = [some a, some b, some c, some d] := by
  obtain ⟨a, ha⟩ := hf 0 (by omega)
  obtain ⟨b, hb⟩ := hf 1 (by omega)
  obtain ⟨c, hc⟩ := hf 2 (by omega)
  obtain ⟨d, hd⟩ := hf 3 (by omega)
  rcases l with _ | ⟨x0, l⟩
  · simp at hl
  rcases l with _ | ⟨x1, l⟩
  · simp at hl
  rcases l with _ | ⟨x2, l⟩
  · simp at hl
  rcases l with _ | ⟨x3, l⟩
  · simp at hl
  rcases l with _ | ⟨x4, l⟩
  · simp only [List.get?_cons_zero, List.get?_cons_succ] at ha hb hc hd
    injection ha with ha
    injection hb with hb
    injection hc with hc
    injection hd with hd
    subst ha hb hc hd
    exact ⟨a, b, c, d, rfl⟩
  · simp only [List.length_cons] at hl
    omega

/-- The `finalizeDraftedTeams` loop over all-complete drafted data: it
appends one team per record and removes exactly the flattened member lists
from the groups. -/
theorem finalize_fold (base : Nat) :
    ∀ (ds : List DraftTeamData) (acc : List Team) (gr : Groups),
      (∀ d ∈ ds, ∃ ms, allSome d.members = some ms) →
      ∃ ts : List Team,
        ds.foldl (finalizeStep base) (acc, gr) =
          (acc ++ ts,
            ((ts.map (fun t => t.members)).flatten).foldl removePlayerFromGroups gr) ∧
        List.Forall₂ (fun d t => ∃ ms, allSome d.members = some ms ∧ t.members = ms) ds ts := by
  intro ds
  induction ds with
  | nil =>
    intro acc gr _
    exact ⟨[], by simp, List.Forall₂.nil⟩
  | cons d ds ih =>
    intro acc gr hfull
    obtain ⟨ms, hms⟩ := hfull d (List.mem_cons_self _ _)
    have hstep : finalizeStep base (acc, gr) d =
        (acc ++ [{ id := base + acc.length + 1
                   members := ms
                   totalHandicap := calcHandicap ms }],
          ms.foldl removePlayerFromGroups gr) := by
      unfold finalizeStep
      rw [hms]
    obtain ⟨ts, hts, hF⟩ := ih
      (acc ++ [{ id := base + acc.length + 1
                 members := ms
                 totalHandicap := calcHandicap ms }])
      (ms.foldl removePlayerFromGroups gr)
      (fun d2 hd2 => hfull d2 (List.mem_cons_of_mem _ hd2))
    refine ⟨{ id := base + acc.length + 1
              members := ms
              totalHandicap := calcHandicap ms } :: ts, ?_,
      List.Forall₂.cons ⟨ms, hms, rfl⟩ hF⟩
    rw [List.foldl_cons, hstep, hts]
    refine Prod.ext ?_ ?_
    · simp [List.append_assoc]
    · show (ts.map (fun t => t.members)).flatten.foldl removePlayerFromGroups
        (ms.foldl removePlayerFromGroups gr) = _
      rw [List.map_cons, List.flatten_cons, List.foldl_append]

/-- A right member of a `Forall₂` has a related left member. -/
theorem forall2_mem_right {α β : Type} {R : α → β → Prop} :
    ∀ {ds : List α} {ts : List β}, List.Forall₂ R ds ts → ∀ t ∈ ts, ∃ d ∈ ds, R d t := by
  intro ds ts h
  induction h with
  | nil => intro t ht; exact absurd ht (List.not_mem_nil t)
  | @cons d t0 ds2 ts2 hdt hF ih =>
    intro t ht
    rcases List.mem_cons.mp ht with h1 | h1
    · subst h1
      exact ⟨d, List.mem_cons_self _ _, hdt⟩
    · obtain ⟨d2, hd2, hR⟩ := ih t h1
      exact ⟨d2, List.mem_cons_of_mem _ hd2, hR⟩

/-- Flattening four-member teams is a permutation of the four slot columns. -/
theorem members_flatten_perm :
    ∀ (ts : List Team),
      (∀ t ∈ ts, ∃ a b c d : Player, t.members = [a, b, c, d]) →
      List.Perm ((ts.map (fun t => t.members)).flatten)
        (ts.filterMap (fun t => t.members.get? 0) ++
          (ts.filterMap (fun t => t.members.get? 1) ++
            (ts.filterMap (fun t => t.members.get? 2) ++
              ts.filterMap (fun t => t.members.get? 3)))) := by
  intro ts
  induction ts with
  | nil => intro _; exact List.Perm.refl _
  | cons t ts ih =>
    intro h
    obtain ⟨a, b, c, d, hm⟩ := h t (List.mem_cons_self _ _)
    have hrest := ih (fun t2 ht2 => h t2 (List.mem_cons_of_mem _ ht2))
    rw [List.perm_iff_count]
    intro x
    have hcnt := hrest.count_eq x
    simp only [List.map_cons, List.flatten_cons, List.filterMap_cons, hm,
      List.get?_cons_zero, List.get?_cons_succ, List.count_append, List.count_cons,
      List.count_nil] at hcnt ⊢
    omega

/-- The first `c` entries of a slot column agree with `memsAt` of the
truncated data. -/
theorem slotMembersIdx_eq_memsAt (data : List DraftTeamData) (slot : Nat) :
    ∀ c : Nat, slotMembersIdx data slot c = memsAt (data.take c) slot := by
  intro c
  induction c with
  | zero => rfl
  | succ c ih =>
    rw [List.take_succ]
    unfold memsAt
    rw [List.filterMap_append]
    simp only [slotMembersIdx]
    rw [ih]
    unfold memsAt
    congr 1
    cases hx : data.get? c with
    | none =>
      have hx2 : data[c]? = none := by rw [← List.get?_eq_getElem?]; exact hx
      rw [hx2]
      unfold slotAt
      rw [hx]
      rfl
    | some d =>
      have hx2 : data[c]? = some d := by rw [← List.get?_eq_getElem?]; exact hx
      rw [hx2]
      unfold slotAt
      rw [hx]
      show (match d.members.get? slot with
        | some (some pl) => [pl]
        | _ => []) =
        List.filterMap (fun d2 => (d2.members.get? slot).getD none) [d]
      cases hy : d.members.get? slot with
      | none =>
        have hy2 : d.members[slot]? = none := by rw [← List.get?_eq_getElem?]; exact hy
        simp [List.filterMap_cons, hy, hy2]
      | some op =>
        have hy2 : d.members[slot]? = some op := by rw [← List.get?_eq_getElem?]; exact hy
        cases op with
        | none => simp [List.filterMap_cons, hy, hy2]
        | some pl => simp [List.filterMap_cons, hy, hy2]

/-- Over the whole data list the slot column is `memsAt`. -/
theorem slotMembersIdx_full (data : List DraftTeamData) (slot : Nat) :
    slotMembersIdx data slot data.length = memsAt data slot := by
  rw [slotMembersIdx_eq_memsAt, List.take_length]

/-- The committed teams extract the same slot columns as the drafted data. -/
theorem forall2_filterMap_slot :
    ∀ (ds : List DraftTeamData) (ts : List Team),
      List.Forall₂ (fun d t => ∃ ms, allSome d.members = some ms ∧ t.members = ms) ds ts →
      (∀ d ∈ ds, ∃ a b c dd : Player, d.members = [some a, some b, some c, some dd]) →
      ∀ k, k < 4 →
        ts.filterMap (fun t => t.members.get? k) = memsAt ds k := by
  intro ds ts h
  induction h with
  | nil => intro _ k _; rfl
  | @cons d t ds2 ts2 hdt hF ih =>
    intro hfull k hk
    obtain ⟨ms, hms, htm⟩ := hdt
    obtain ⟨a, b, c, dd, hm⟩ := hfull d (List.mem_cons_self _ _)
    have hms2 : allSome [some a, some b, some c, some dd] = some ms := by
      rw [← hm]
      exact hms
    have hms3 : (some [a, b, c, dd] : Option (List Player)) = some ms := hms2
    injection hms3 with hms3
    subst hms3
    have htail := ih (fun d2 hd2 => hfull d2 (List.mem_cons_of_mem _ hd2)) k hk
    simp only [memsAt] at htail
    interval_cases k <;>
      simp only [memsAt, List.filterMap_cons, htm, hm, List.get?_cons_zero,
        List.get?_cons_succ, Option.getD_some, htail]

/-- Filtering the flattened members by membership in the slot's home group
recovers exactly that slot column. -/
theorem filter_members_slot (X : List Player) (k : Nat) (hk : k < 4) :
    ∀ (ts : List Team),
      (∀ t ∈ ts, ∃ a b c d : Player, t.members = [a, b, c, d] ∧
        (∀ j p, [a, b, c, d].get? j = some p → ((p ∈ X) ↔ j = k))) →
      ((ts.map (fun t => t.members)).flatten).filter (fun p => decide (p ∈ X)) =
        ts.filterMap (fun t => t.members.get? k) := by
  intro ts
  induction ts with
  | nil => intro _; rfl
  | cons t ts ih =>
    intro h
    obtain ⟨a, b, c, d, hm, hj⟩ := h t (List.mem_cons_self _ _)
    have hrest := ih (fun t2 ht2 => h t2 (List.mem_cons_of_mem _ ht2))
    have h0 := hj 0 a rfl
    have h1 := hj 1 b rfl
    have h2 := hj 2 c rfl
    have h3 := hj 3 d rfl
    simp only [List.map_cons, List.flatten_cons, List.filter_append, List.filterMap_cons, hm]
    interval_cases k <;>
      (simp at h0 h1 h2 h3 <;> skip) <;>
      simp [List.filter_cons, List.get?_cons_zero, List.get?_cons_succ, h0, h1, h2, h3, hrest]

/-- The member-removal loop of finalization: removing players that each live
in exactly one group splits, group by group, into the removed column and the
survivors. -/
theorem removal_fold_perm :
    ∀ (ps : List Player) (g : Groups),
      ps.Nodup → g.A.Nodup → g.B.Nodup → g.C.Nodup → g.D.Nodup →
      (∀ p ∈ ps,
        (p ∈ g.A ∧ p ∉ g.B ∧ p ∉ g.C ∧ p ∉ g.D) ∨
        (p ∉ g.A ∧ p ∈ g.B ∧ p ∉ g.C ∧ p ∉ g.D) ∨
        (p ∉ g.A ∧ p ∉ g.B ∧ p ∈ g.C ∧ p ∉ g.D) ∨
        (p ∉ g.A ∧ p ∉ g.B ∧ p ∉ g.C ∧ p ∈ g.D)) →
      List.Perm (ps.filter (fun q => decide (q ∈ g.A)) ++
        (ps.foldl removePlayerFromGroups g).A) g.A ∧
      List.Perm (ps.filter (fun q => decide (q ∈ g.B)) ++
        (ps.foldl removePlayerFromGroups g).B) g.B ∧
      List.Perm (ps.filter (fun q => decide (q ∈ g.C)) ++
        (ps.foldl removePlayerFromGroups g).C) g.C ∧
      List.Perm (ps.filter (fun q => decide (q ∈ g.D)) ++
        (ps.foldl removePlayerFromGroups g).D) g.D := by
  intro ps
  induction ps with
  | nil =>
    intro g _ _ _ _ _ _
    exact ⟨List.Perm.refl _, List.Perm.refl _, List.Perm.refl _, List.Perm.refl _⟩
  | cons p ps ih =>
    intro g hnd hA hB hC hD hone
    obtain ⟨hpps, hndps⟩ := List.nodup_cons.mp hnd
    have hqp : ∀ q ∈ ps, q ≠ p := fun q hq he => hpps (he ▸ hq)
    rcases hone p (List.mem_cons_self _ _) with ⟨h1, h2, h3, h4⟩ | ⟨h1, h2, h3, h4⟩ |
      ⟨h1, h2, h3, h4⟩ | ⟨h1, h2, h3, h4⟩
    · -- p lives in group A
      have hstep : removePlayerFromGroups g p = { g with A := g.A.erase p } := by
        unfold removePlayerFromGroups
        rw [if_pos h1]
      obtain ⟨ihA, ihB, ihC, ihD⟩ := ih { g with A := g.A.erase p } hndps (hA.erase p) hB hC hD
        (by
          intro q hq
          have hne := hqp q hq
          rcases hone q (List.mem_cons_of_mem _ hq) with ⟨k1, k2, k3, k4⟩ |
            ⟨k1, k2, k3, k4⟩ | ⟨k1, k2, k3, k4⟩ | ⟨k1, k2, k3, k4⟩
          · exact Or.inl ⟨(List.mem_erase_of_ne hne).mpr k1, k2, k3, k4⟩
          · exact Or.inr (Or.inl ⟨fun hh => k1 (List.mem_of_mem_erase hh), k2, k3, k4⟩)
          · exact Or.inr (Or.inr (Or.inl
              ⟨fun hh => k1 (List.mem_of_mem_erase hh), k2, k3, k4⟩))
          · exact Or.inr (Or.inr (Or.inr
              ⟨fun hh => k1 (List.mem_of_mem_erase hh), k2, k3, k4⟩)))
      have hfA : ps.filter (fun q => decide (q ∈ g.A.erase p)) =
          ps.filter (fun q => decide (q ∈ g.A)) :=
        List.filter_congr (fun q hq =>
          decide_eq_decide.mpr (List.mem_erase_of_ne (hqp q hq)))
      refine ⟨?_, ?_, ?_, ?_⟩
      · simp only [List.foldl_cons, hstep, List.filter_cons]
        rw [if_pos (by simp [h1]), List.cons_append]
        have hmain : List.Perm (ps.filter (fun q => decide (q ∈ g.A)) ++
            (ps.foldl removePlayerFromGroups { g with A := g.A.erase p }).A)
            (g.A.erase p) := by
          rw [← hfA]
          exact ihA
        exact (hmain.cons p).trans (List.perm_cons_erase h1).symm
      · simp only [List.foldl_cons, hstep, List.filter_cons]
        rw [if_neg (by simp [h2])]
        exact ihB
      · simp only [List.foldl_cons, hstep, List.filter_cons]
        rw [if_neg (by simp [h3])]
        exact ihC
      · simp only [List.foldl_cons, hstep, List.filter_cons]
        rw [if_neg (by simp [h4])]
        exact ihD
    · -- p lives in group B
      have hstep : removePlayerFromGroups g p = { g with B := g.B.erase p } := by
        unfold removePlayerFromGroups
        rw [if_neg h1, if_pos h2]
      obtain ⟨ihA, ihB, ihC, ihD⟩ := ih { g with B := g.B.erase p } hndps hA (hB.erase p) hC hD
        (by
          intro q hq
          have hne := hqp q hq
          rcases hone q (List.mem_cons_of_mem _ hq) with ⟨k1, k2, k3, k4⟩ |
            ⟨k1, k2, k3, k4⟩ | ⟨k1, k2, k3, k4⟩ | ⟨k1, k2, k3, k4⟩
          · exact Or.inl ⟨k1, fun hh => k2 (List.mem_of_mem_erase hh), k3, k4⟩
          · exact Or.inr (Or.inl ⟨k1, (List.mem_erase_of_ne hne).mpr k2, k3, k4⟩)
          · exact Or.inr (Or.inr (Or.inl
              ⟨k1, fun hh => k2 (List.mem_of_mem_erase hh), k3, k4⟩))
          · exact Or.inr (Or.inr (Or.inr
              ⟨k1, fun hh => k2 (List.mem_of_mem_erase hh), k3, k4⟩)))
      have hfB : ps.filter (fun q => decide (q ∈ g.B.erase p)) =
          ps.filter (fun q => decide (q ∈ g.B)) :=
        List.filter_congr (fun q hq =>
          decide_eq_decide.mpr (List.mem_erase_of_ne (hqp q hq)))
      refine ⟨?_, ?_, ?_, ?_⟩
      · simp only [List.foldl_cons, hstep, List.filter_cons]
        rw [if_neg (by simp [h1])]
        exact ihA
      · simp only [List.foldl_cons, hstep, List.filter_cons]
        rw [if_pos (by simp [h2]), List.cons_append]
        have hmain : List.Perm (ps.filter (fun q => decide (q ∈ g.B)) ++
            (ps.foldl removePlayerFromGroups { g with B := g.B.erase p }).B)
            (g.B.erase p) := by
          rw [← hfB]
          exact ihB
        exact (hmain.cons p).trans (List.perm_cons_erase h2).symm
      · simp only [List.foldl_cons, hstep, List.filter_cons]
        rw [if_neg (by simp [h3])]
        exact ihC
      · simp only [List.foldl_cons, hstep, List.filter_cons]
        rw [if_neg (by simp [h4])]
        exact ihD
    · -- p lives in group C
      have hstep : removePlayerFromGroups g p = { g with C := g.C.erase p } := by
        unfold removePlayerFromGroups
        rw [if_neg h1, if_neg h2, if_pos h3]
      obtain ⟨ihA, ihB, ihC, ihD⟩ := ih { g with C := g.C.erase p } hndps hA hB (hC.erase p) hD
        (by
          intro q hq
          have hne := hqp q hq
          rcases hone q (List.mem_cons_of_mem _ hq) with ⟨k1, k2, k3, k4⟩ |
            ⟨k1, k2, k3, k4⟩ | ⟨k1, k2, k3, k4⟩ | ⟨k1, k2, k3, k4⟩
          · exact Or.inl ⟨k1, k2, fun hh => k3 (List.mem_of_mem_erase hh), k4⟩
          · exact Or.inr (Or.inl ⟨k1, k2, fun hh => k3 (List.mem_of_mem_erase hh), k4⟩)
          · exact Or.inr (Or.inr (Or.inl
              ⟨k1, k2, (List.mem_erase_of_ne hne).mpr k3, k4⟩))
          · exact Or.inr (Or.inr (Or.inr
              ⟨k1, k2, fun hh => k3 (List.mem_of_mem_erase hh), k4⟩)))
      have hfC : ps.filter (fun q => decide (q ∈ g.C.erase p)) =
          ps.filter (fun q => decide (q ∈ g.C)) :=
        List.filter_congr (fun q hq =>
          decide_eq_decide.mpr (List.mem_erase_of_ne (hqp q hq)))
      refine ⟨?_, ?_, ?_, ?_⟩
      · simp only [List.foldl_cons, hstep, List.filter_cons]
        rw [if_neg (by simp [h1])]
        exact ihA
      · simp only [List.foldl_cons, hstep, List.filter_cons]
        rw [if_neg (by simp [h2])]
        exact ihB
      · simp only [List.foldl_cons, hstep, List.filter_cons]
        rw [if_pos (by simp [h3]), List.cons_append]
        have hmain : List.Perm (ps.filter (fun q => decide (q ∈ g.C)) ++
            (ps.foldl removePlayerFromGroups { g with C := g.C.erase p }).C)
            (g.C.erase p) := by
          rw [← hfC]
          exact ihC
        exact (hmain.cons p).trans (List.perm_cons_erase h3).symm
      · simp only [List.foldl_cons, hstep, List.filter_cons]
        rw [if_neg (by simp [h4])]
        exact ihD
    · -- p lives in group D
      have hstep : removePlayerFromGroups g p = { g with D := g.D.erase p } := by
        unfold removePlayerFromGroups
        rw [if_neg h1, if_neg h2, if_neg h3, if_pos h4]
      obtain ⟨ihA, ihB, ihC, ihD⟩ := ih { g with D := g.D.erase p } hndps hA hB hC (hD.erase p)
        (by
          intro q hq
          have hne := hqp q hq
          rcases hone q (List.mem_cons_of_mem _ hq) with ⟨k1, k2, k3, k4⟩ |
            ⟨k1, k2, k3, k4⟩ | ⟨k1, k2, k3, k4⟩ | ⟨k1, k2, k3, k4⟩
          · exact Or.inl ⟨k1, k2, k3, fun hh => k4 (List.mem_of_mem_erase hh)⟩
          · exact Or.inr (Or.inl ⟨k1, k2, k3, fun hh => k4 (List.mem_of_mem_erase hh)⟩)
          · exact Or.inr (Or.inr (Or.inl
              ⟨k1, k2, k3, fun hh => k4 (List.mem_of_mem_erase hh)⟩))
          · exact Or.inr (Or.inr (Or.inr
              ⟨k1, k2, k3, (List.mem_erase_of_ne hne).mpr k4⟩)))
      have hfD : ps.filter (fun q => decide (q ∈ g.D.erase p)) =
          ps.filter (fun q => decide (q ∈ g.D)) :=
        List.filter_congr (fun q hq =>
          decide_eq_decide.mpr (List.mem_erase_of_ne (hqp q hq)))
      refine ⟨?_, ?_, ?_, ?_⟩
      · simp only [List.foldl_cons, hstep, List.filter_cons]
        rw [if_neg (by simp [h1])]
        exact ihA
      · simp only [List.foldl_cons, hstep, List.filter_cons]
        rw [if_neg (by simp [h2])]
        exact ihB
      · simp only [List.foldl_cons, hstep, List.filter_cons]
        rw [if_neg (by simp [h3])]
        exact ihC
      · simp only [List.foldl_cons, hstep, List.filter_cons]
        rw [if_pos (by simp [h4]), List.cons_append]
        have hmain : List.Perm (ps.filter (fun q => decide (q ∈ g.D)) ++
            (ps.foldl removePlayerFromGroups { g with D := g.D.erase p }).D)
            (g.D.erase p) := by
          rw [← hfD]
          exact ihD
        exact (hmain.cons p).trans (List.perm_cons_erase h4).symm

/-- Finalizing a completed draft: one team per drafted record is committed,
each complete with one player from each group, those players leave the live
groups (split per group by slot), the draft is discarded, and everything
else is untouched. -/
theorem finalize_complete (st2 : AppState) (s : DraftState) (N : Nat)
    (hs : st2.interactiveDraftState = some s)
    (hinv : DraftInv st2.groups N s)
    (hq4 : s.currentRoundIndex = 4) (ht0 : s.currentTeamIndex = 0)
    (hnd : (st2.groups.A ++ st2.groups.B ++ st2.groups.C ++ st2.groups.D).Nodup) :
    ∃ (newTeams : List Team) (st3 : AppState),
      finalizeDraftedTeams st2 = (st3, some N) ∧
      st3.teams = st2.teams ++ newTeams ∧
      newTeams.length = N ∧
      (∀ t ∈ newTeams, ∃ a b c d : Player, t.members = [a, b, c, d] ∧
        a ∈ st2.groups.A ∧ b ∈ st2.groups.B ∧ c ∈ st2.groups.C ∧ d ∈ st2.groups.D) ∧
      List.Perm (newTeams.filterMap (fun t => t.members.get? 0) ++ st3.groups.A)
        st2.groups.A ∧
      List.Perm (newTeams.filterMap (fun t => t.members.get? 1) ++ st3.groups.B)
        st2.groups.B ∧
      List.Perm (newTeams.filterMap (fun t => t.members.get? 2) ++ st3.groups.C)
        st2.groups.C ∧
      List.Perm (newTeams.filterMap (fun t => t.members.get? 3) ++ st3.groups.D)
        st2.groups.D ∧
      st3.interactiveDraftState = none ∧
      st3.players = st2.players ∧ st3.settings = st2.settings ∧
      st3.holeAssignments = st2.holeAssignments := by
  obtain ⟨hN, hlen, hcur, hmem4, hper⟩ := hinv
  have hcN : ∀ p, p < 4 → pickedCount N s.currentRoundIndex s.currentTeamIndex p = N := by
    intro p hp
    rw [hq4, ht0]
    unfold pickedCount
    split_ifs <;> omega
  have hperm0 : List.Perm (slotMembersIdx s.draftedTeamsData 0 N ++ s.avail GLetter.A)
      st2.groups.A := by
    have h3 := (hper 3 (by omega)).2.2
    rw [hcN 3 (by omega)] at h3
    exact h3
  have hperm1 : List.Perm (slotMembersIdx s.draftedTeamsData 1 N ++ s.avail GLetter.B)
      st2.groups.B := by
    have h3 := (hper 2 (by omega)).2.2
    rw [hcN 2 (by omega)] at h3
    exact h3
  have hperm2 : List.Perm (slotMembersIdx s.draftedTeamsData 2 N ++ s.avail GLetter.C)
      st2.groups.C := by
    have h3 := (hper 1 (by omega)).2.2
    rw [hcN 1 (by omega)] at h3
    exact h3
  have hperm3 : List.Perm (slotMembersIdx s.draftedTeamsData 3 N ++ s.avail GLetter.D)
      st2.groups.D := by
    have h3 := (hper 0 (by omega)).2.2
    rw [hcN 0 (by omega)] at h3
    exact h3
  have hfill : ∀ k, k < 4 → ∀ i, i < N →
      ∃ pl, slotAt s.draftedTeamsData k i = some (some pl) := by
    intro k hk i hi
    obtain ⟨f, _, _⟩ := hper (3 - k) (by omega)
    have h3k : 3 - (3 - k) = k := by omega
    obtain ⟨pl, hpl⟩ := f i (by rw [hcN (3 - k) (by omega)]; exact hi)
    rw [h3k] at hpl
    exact ⟨pl, hpl⟩
  have hfull4 : ∀ d ∈ s.draftedTeamsData,
      ∃ a b c dd : Player, d.members = [some a, some b, some c, some dd] := by
    intro d hd
    obtain ⟨⟨i, hilen⟩, hgi⟩ := List.mem_iff_get.mp hd
    have hget : s.draftedTeamsData.get? i = some d := by
      rw [List.get?_eq_get hilen, hgi]
    apply members_four d.members (hmem4 d hd)
    intro k hk
    obtain ⟨pl, hpl⟩ := hfill k hk i (by omega)
    refine ⟨pl, ?_⟩
    unfold slotAt at hpl
    rw [hget] at hpl
    exact hpl
  have hin : ∀ d ∈ s.draftedTeamsData, ∀ k pl, k < 4 →
      d.members.get? k = some (some pl) → pl ∈ slotMembersIdx s.draftedTeamsData k N := by
    intro d hd k pl _ hg2
    obtain ⟨⟨i, hilen⟩, hgi⟩ := List.mem_iff_get.mp hd
    have hget : s.draftedTeamsData.get? i = some d := by
      rw [List.get?_eq_get hilen, hgi]
    apply mem_slotMembersIdx s.draftedTeamsData k N i pl (by omega)
    unfold slotAt
    rw [hget]
    exact hg2
  -- group nodups and disjointness
  obtain ⟨hndABC, hndD, hdisjD⟩ := List.nodup_append.mp hnd
  obtain ⟨hndAB, hndC, hdisjC⟩ := List.nodup_append.mp hndABC
  obtain ⟨hndA, hndB, hdisjB⟩ := List.nodup_append.mp hndAB
  have hAB : ∀ x, x ∈ st2.groups.A → x ∉ st2.groups.B := fun x hx hb => hdisjB hx hb
  have hAC : ∀ x, x ∈ st2.groups.A → x ∉ st2.groups.C := fun x hx hc =>
    hdisjC (List.mem_append_left _ hx) hc
  have hAD : ∀ x, x ∈ st2.groups.A → x ∉ st2.groups.D := fun x hx hd =>
    hdisjD (List.mem_append_left _ (List.mem_append_left _ hx)) hd
  have hBC : ∀ x, x ∈ st2.groups.B → x ∉ st2.groups.C := fun x hx hc =>
    hdisjC (List.mem_append_right _ hx) hc
  have hBD : ∀ x, x ∈ st2.groups.B → x ∉ st2.groups.D := fun x hx hd =>
    hdisjD (List.mem_append_left _ (List.mem_append_right _ hx)) hd
  have hCD : ∀ x, x ∈ st2.groups.C → x ∉ st2.groups.D := fun x hx hd =>
    hdisjD (List.mem_append_right _ hx) hd
  -- run the finalize body
  unfold finalizeDraftedTeams
  split
  next heq0 =>
    rw [hs] at heq0
    simp at heq0
  next s0 heq0 =>
    rw [hs] at heq0
    injection heq0 with heq0
    subst heq0
    rw [if_neg (by rw [hq4]; decide)]
    obtain ⟨ts, hfold, hF⟩ := finalize_fold st2.teams.length s.draftedTeamsData []
      st2.groups
      (fun d hd => by
        obtain ⟨a, b, c, dd, hm⟩ := hfull4 d hd
        exact ⟨[a, b, c, dd], by rw [hm]; rfl⟩)
    rw [hfold]
    simp only [List.nil_append]
    have hlen_ts : ts.length = N := by
      rw [← List.Forall₂.length_eq hF]
      exact hlen
    rw [hlen_ts]
    -- facts about the committed teams
    have htsfull : ∀ t ∈ ts, ∃ a b c dd : Player, t.members = [a, b, c, dd] ∧
        a ∈ st2.groups.A ∧ b ∈ st2.groups.B ∧ c ∈ st2.groups.C ∧ dd ∈ st2.groups.D := by
      intro t ht
      obtain ⟨d, hdmem, ms, hms, htm⟩ := forall2_mem_right hF t ht
      obtain ⟨a, b, c, dd, hm⟩ := hfull4 d hdmem
      have hms2 : allSome [some a, some b, some c, some dd] = some ms := by
        rw [← hm]
        exact hms
      have hms3 : (some [a, b, c, dd] : Option (List Player)) = some ms := hms2
      injection hms3 with hms3
      subst hms3
      refine ⟨a, b, c, dd, by rw [htm], ?_, ?_, ?_, ?_⟩
      · exact hperm0.mem_iff.mp (List.mem_append_left _
          (hin d hdmem 0 a (by omega) (by rw [hm]; rfl)))
      · exact hperm1.mem_iff.mp (List.mem_append_left _
          (hin d hdmem 1 b (by omega) (by rw [hm]; rfl)))
      · exact hperm2.mem_iff.mp (List.mem_append_left _
          (hin d hdmem 2 c (by omega) (by rw [hm]; rfl)))
      · exact hperm3.mem_iff.mp (List.mem_append_left _
          (hin d hdmem 3 dd (by omega) (by rw [hm]; rfl)))
    have hts4 : ∀ t ∈ ts, ∃ a b c dd : Player, t.members = [a, b, c, dd] := by
      intro t ht
      obtain ⟨a, b, c, dd, hm, _⟩ := htsfull t ht
      exact ⟨a, b, c, dd, hm⟩
    -- slot columns
    have hsm : ∀ k, k < 4 → ts.filterMap (fun t => t.members.get? k) =
        slotMembersIdx s.draftedTeamsData k N := by
      intro k hk
      rw [forall2_filterMap_slot s.draftedTeamsData ts hF hfull4 k hk, ← hlen]
      exact (slotMembersIdx_full s.draftedTeamsData k).symm
    -- nodups and subsets of the slot columns
    have hndF0 : (ts.filterMap (fun t => t.members.get? 0)).Nodup := by
      rw [hsm 0 (by omega)]
      exact (List.nodup_append.mp (hperm0.nodup_iff.mpr hndA)).1
    have hndF1 : (ts.filterMap (fun t => t.members.get? 1)).Nodup := by
      rw [hsm 1 (by omega)]
      exact (List.nodup_append.mp (hperm1.nodup_iff.mpr hndB)).1
    have hndF2 : (ts.filterMap (fun t => t.members.get? 2)).Nodup := by
      rw [hsm 2 (by omega)]
      exact (List.nodup_append.mp (hperm2.nodup_iff.mpr hndC)).1
    have hndF3 : (ts.filterMap (fun t => t.members.get? 3)).Nodup := by
      rw [hsm 3 (by omega)]
      exact (List.nodup_append.mp (hperm3.nodup_iff.mpr hndD)).1
    have hsub0 : ∀ x ∈ ts.filterMap (fun t => t.members.get? 0), x ∈ st2.groups.A := by
      intro x hx
      rw [hsm 0 (by omega)] at hx
      exact hperm0.mem_iff.mp (List.mem_append_left _ hx)
    have hsub1 : ∀ x ∈ ts.filterMap (fun t => t.members.get? 1), x ∈ st2.groups.B := by
      intro x hx
      rw [hsm 1 (by omega)] at hx
      exact hperm1.mem_iff.mp (List.mem_append_left _ hx)
    have hsub2 : ∀ x ∈ ts.filterMap (fun t => t.members.get? 2), x ∈ st2.groups.C := by
      intro x hx
      rw [hsm 2 (by omega)] at hx
      exact hperm2.mem_iff.mp (List.mem_append_left _ hx)
    have hsub3 : ∀ x ∈ ts.filterMap (fun t => t.members.get? 3), x ∈ st2.groups.D := by
      intro x hx
      rw [hsm 3 (by omega)] at hx
      exact hperm3.mem_iff.mp (List.mem_append_left _ hx)
    -- the flattened member list
    have htperm := members_flatten_perm ts hts4
    have hndBig : (ts.filterMap (fun t => t.members.get? 0) ++
        (ts.filterMap (fun t => t.members.get? 1) ++
          (ts.filterMap (fun t => t.members.get? 2) ++
            ts.filterMap (fun t => t.members.get? 3)))).Nodup := by
      refine List.nodup_append.mpr ⟨hndF0, List.nodup_append.mpr ⟨hndF1,
        List.nodup_append.mpr ⟨hndF2, hndF3, ?_⟩, ?_⟩, ?_⟩
      · intro x h1 h2
        exact hCD x (hsub2 x h1) (hsub3 x h2)
      · intro x h1 h2
        rcases List.mem_append.mp h2 with h3 | h3
        · exact hBC x (hsub1 x h1) (hsub2 x h3)
        · exact hBD x (hsub1 x h1) (hsub3 x h3)
      · intro x h1 h2
        rcases List.mem_append.mp h2 with h3 | h3
        · exact hAB x (hsub0 x h1) (hsub1 x h3)
        rcases List.mem_append.mp h3 with h4 | h4
        · exact hAC x (hsub0 x h1) (hsub2 x h4)
        · exact hAD x (hsub0 x h1) (hsub3 x h4)
    have hndPs : ((ts.map (fun t => t.members)).flatten).Nodup :=
      htperm.nodup_iff.mpr hndBig
    have honePs : ∀ p ∈ (ts.map (fun t => t.members)).flatten,
        (p ∈ st2.groups.A ∧ p ∉ st2.groups.B ∧ p ∉ st2.groups.C ∧ p ∉ st2.groups.D) ∨
        (p ∉ st2.groups.A ∧ p ∈ st2.groups.B ∧ p ∉ st2.groups.C ∧ p ∉ st2.groups.D) ∨
        (p ∉ st2.groups.A ∧ p ∉ st2.groups.B ∧ p ∈ st2.groups.C ∧ p ∉ st2.groups.D) ∨
        (p ∉ st2.groups.A ∧ p ∉ st2.groups.B ∧ p ∉ st2.groups.C ∧ p ∈ st2.groups.D) := by
      intro p hp
      have hp2 := htperm.mem_iff.mp hp
      rcases List.mem_append.mp hp2 with h | h
      · have h2 := hsub0 p h
        exact Or.inl ⟨h2, hAB p h2, hAC p h2, hAD p h2⟩
      rcases List.mem_append.mp h with h | h
      · have h2 := hsub1 p h
        exact Or.inr (Or.inl ⟨fun ha => hAB p ha h2, h2, hBC p h2, hBD p h2⟩)
      rcases List.mem_append.mp h with h | h
      · have h2 := hsub2 p h
        exact Or.inr (Or.inr (Or.inl
          ⟨fun ha => hAC p ha h2, fun hb => hBC p hb h2, h2, hCD p h2⟩))
      · have h2 := hsub3 p h
        exact Or.inr (Or.inr (Or.inr
          ⟨fun ha => hAD p ha h2, fun hb => hBD p hb h2, fun hc => hCD p hc h2, h2⟩))
    obtain ⟨rA, rB, rC, rD⟩ := removal_fold_perm ((ts.map (fun t => t.members)).flatten)
      st2.groups hndPs hndA hndB hndC hndD honePs
    -- filters equal slot columns
    have hslot : ∀ (X : List Player) (k : Nat), k < 4 →
        (∀ t ∈ ts, ∃ a b c d : Player, t.members = [a, b, c, d] ∧
          (∀ j p, [a, b, c, d].get? j = some p → ((p ∈ X) ↔ j = k))) →
        ((ts.map (fun t => t.members)).flatten).filter (fun p => decide (p ∈ X)) =
          ts.filterMap (fun t => t.members.get? k) :=
      fun X k hk hX => filter_members_slot X k hk ts hX
    have hfA : ((ts.map (fun t => t.members)).flatten).filter
        (fun p => decide (p ∈ st2.groups.A)) =
        ts.filterMap (fun t => t.members.get? 0) := by
      apply hslot _ 0 (by omega)
      intro t ht
      obtain ⟨a, b, c, dd, hm, ha2, hb2, hc2, hd2⟩ := htsfull t ht
      refine ⟨a, b, c, dd, hm, ?_⟩
      intro j p hjp
      have hbA : b ∉ st2.groups.A := fun hx => hAB b hx hb2
      have hcA : c ∉ st2.groups.A := fun hx => hAC c hx hc2
      have hdA : dd ∉ st2.groups.A := fun hx => hAD dd hx hd2
      rcases j with _ | _ | _ | _ | j
      · simp only [List.get?_cons_zero] at hjp
        injection hjp with hjp
        subst hjp
        simp [ha2]
      · simp only [List.get?_cons_succ, List.get?_cons_zero] at hjp
        injection hjp with hjp
        subst hjp
        simp [hbA]
      · simp only [List.get?_cons_succ, List.get?_cons_zero] at hjp
        injection hjp with hjp
        subst hjp
        simp [hcA]
      · simp only [List.get?_cons_succ, List.get?_cons_zero] at hjp
        injection hjp with hjp
        subst hjp
        simp [hdA]
      · simp only [List.get?_cons_succ] at hjp
        simp at hjp
    have hfB : ((ts.map (fun t => t.members)).flatten).filter
        (fun p => decide (p ∈ st2.groups.B)) =
        ts.filterMap (fun t => t.members.get? 1) := by
      apply hslot _ 1 (by omega)
      intro t ht
      obtain ⟨a, b, c, dd, hm, ha2, hb2, hc2, hd2⟩ := htsfull t ht
      refine ⟨a, b, c, dd, hm, ?_⟩
      intro j p hjp
      have haB : a ∉ st2.groups.B := hAB a ha2
      have hcB : c ∉ st2.groups.B := fun hx => hBC c hx hc2
      have hdB : dd ∉ st2.groups.B := fun hx => hBD dd hx hd2
      rcases j with _ | _ | _ | _ | j
      · simp only [List.get?_cons_zero] at hjp
        injection hjp with hjp
        subst hjp
        simp [haB]
      · simp only [List.get?_cons_succ, List.get?_cons_zero] at hjp
        injection hjp with hjp
        subst hjp
        simp [hb2]
      · simp only [List.get?_cons_succ, List.get?_cons_zero] at hjp
        injection hjp with hjp
        subst hjp
        simp [hcB]
      · simp only [List.get?_cons_succ, List.get?_cons_zero] at hjp
        injection hjp with hjp
        subst hjp
        simp [hdB]
      · simp only [List.get?_cons_succ] at hjp
        simp at hjp
    have hfC : ((ts.map (fun t => t.members)).flatten).filter
        (fun p => decide (p ∈ st2.groups.C)) =
        ts.filterMap (fun t => t.members.get? 2) := by
      apply hslot _ 2 (by omega)
      intro t ht
      obtain ⟨a, b, c, dd, hm, ha2, hb2, hc2, hd2⟩ := htsfull t ht
      refine ⟨a, b, c, dd, hm, ?_⟩
      intro j p hjp
      have haC : a ∉ st2.groups.C := hAC a ha2
      have hbC : b ∉ st2.groups.C := hBC b hb2
      have hdC : dd ∉ st2.groups.C := fun hx => hCD dd hx hd2
      rcases j with _ | _ | _ | _ | j
      · simp only [List.get?_cons_zero] at hjp
        injection hjp with hjp
        subst hjp
        simp [haC]
      · simp only [List.get?_cons_succ, List.get?_cons_zero] at hjp
        injection hjp with hjp
        subst hjp
        simp [hbC]
      · simp only [List.get?_cons_succ, List.get?_cons_zero] at hjp
        injection hjp with hjp
        subst hjp
        simp [hc2]
      · simp only [List.get?_cons_succ, List.get?_cons_zero] at hjp
        injection hjp with hjp
        subst hjp
        simp [hdC]
      · simp only [List.get?_cons_succ] at hjp
        simp at hjp
    have hfD : ((ts.map (fun t => t.members)).flatten).filter
        (fun p => decide (p ∈ st2.groups.D)) =
        ts.filterMap (fun t => t.members.get? 3) := by
      apply hslot _ 3 (by omega)
      intro t ht
      obtain ⟨a, b, c, dd, hm, ha2, hb2, hc2, hd2⟩ := htsfull t ht
      refine ⟨a, b, c, dd, hm, ?_⟩
      intro j p hjp
      have haD : a ∉ st2.groups.D := hAD a ha2
      have hbD : b ∉ st2.groups.D := hBD b hb2
      have hcD : c ∉ st2.groups.D := hCD c hc2
      rcases j with _ | _ | _ | _ | j
      · simp only [List.get?_cons_zero] at hjp
        injection hjp with hjp
        subst hjp
        simp [haD]
      · simp only [List.get?_cons_succ, List.get?_cons_zero] at hjp
        injection hjp with hjp
        subst hjp
        simp [hbD]
      · simp only [List.get?_cons_succ, List.get?_cons_zero] at hjp
        injection hjp with hjp
        subst hjp
        simp [hcD]
      · simp only [List.get?_cons_succ, List.get?_cons_zero] at hjp
        injection hjp with hjp
        subst hjp
        simp [hd2]
      · simp only [List.get?_cons_succ] at hjp
        simp at hjp
    refine ⟨ts, _, rfl, rfl, hlen_ts, htsfull, ?_, ?_, ?_, ?_, rfl, rfl, rfl, rfl⟩
    · rw [← hfA]
      exact rA
    · rw [← hfB]
      exact rB
    · rw [← hfC]
      exact rC
    · rw [← hfD]
      exact rD

/-- C2.  With distinct players across the four groups and
`numTeams = min(|A|,|B|,|C|,|D|) > 0`, initialization succeeds, the
`4 x numTeams` picks all succeed for any draws, and `finalizeDraftedTeams`
then appends exactly `numTeams` complete teams, one member per group, whose
members leave the live groups; a finalize attempted while rounds remain
fails and commits nothing. -/
theorem c2_draft_finalize (st : AppState) (rs : List Nat) (N : Nat)
    (hNdef : N = min (min st.groups.A.length st.groups.B.length)
        (min st.groups.C.length st.groups.D.length))
    (hN : 0 < N)
    (hnd : (st.groups.A ++ st.groups.B ++ st.groups.C ++ st.groups.D).Nodup)
    (hrs : rs.length = 4 * N) :
    (initializeInteractiveDraft st).2 = true ∧
    (∃ st2 : AppState, runPicks rs (initializeInteractiveDraft st).1 = some st2 ∧
      ∃ (newTeams : List Team) (st3 : AppState),
        finalizeDraftedTeams st2 = (st3, some N) ∧
        st3.teams = st.teams ++ newTeams ∧
        newTeams.length = N ∧
        (∀ t ∈ newTeams, ∃ a b c d : Player, t.members = [a, b, c, d] ∧
          a ∈ st.groups.A ∧ b ∈ st.groups.B ∧ c ∈ st.groups.C ∧ d ∈ st.groups.D) ∧
        List.Perm (newTeams.filterMap (fun t => t.members.get? 0) ++ st3.groups.A)
          st.groups.A ∧
        List.Perm (newTeams.filterMap (fun t => t.members.get? 1) ++ st3.groups.B)
          st.groups.B ∧
        List.Perm (newTeams.filterMap (fun t => t.members.get? 2) ++ st3.groups.C)
          st.groups.C ∧
        List.Perm (newTeams.filterMap (fun t => t.members.get? 3) ++ st3.groups.D)
          st.groups.D ∧
        st3.interactiveDraftState = none ∧
        st3.players = st.players ∧ st3.settings = st.settings ∧
        st3.holeAssignments = st.holeAssignments) ∧
    (∀ (stx : AppState) (sx : DraftState), stx.interactiveDraftState = some sx →
      sx.currentRoundIndex < 4 → finalizeDraftedTeams stx = (stx, none)) := by
  subst hNdef
  obtain ⟨ds, hinit, hdsinv, hq0, ht0⟩ := init_inv st hN
  have hNle : ∀ L, min (min st.groups.A.length st.groups.B.length)
      (min st.groups.C.length st.groups.D.length) ≤ (st.groups.ofLetter L).length := by
    intro L
    cases L <;> (simp only [Groups.ofLetter]; omega)
  obtain ⟨sf, hrun, hinvf, hqf, htf⟩ := runPicks_inv st.groups _ hNle rs
    { st with interactiveDraftState := some ds } ds rfl hdsinv
    (by rw [hq0, ht0]; omega)
  refine ⟨by rw [hinit], ?_, ?_⟩
  · refine ⟨{ st with interactiveDraftState := some sf }, ?_, ?_⟩
    · rw [hinit]
      exact hrun
    · obtain ⟨nt, st3, hfin, hteams, hlen, hfull, hpA, hpB, hpC, hpD, hdraft, hpl, hset,
        hhole⟩ := finalize_complete { st with interactiveDraftState := some sf } sf _ rfl
        hinvf hqf htf hnd
      exact ⟨nt, st3, hfin, hteams, hlen, hfull, hpA, hpB, hpC, hpD, hdraft, hpl, hset,
        hhole⟩
  · intro stx sx hsx hlt
    unfold finalizeDraftedTeams
    split
    next heq0 => rfl
    next s0 heq0 =>
      rw [hsx] at heq0
      injection heq0 with heq0
      rw [if_pos (show s0.currentRoundIndex < draftOrder.length from heq0 ▸ hlt)]

/-- C2 witness: the four-player, one-team draft runs end to end. -/
theorem c2_witness :
    (initializeInteractiveDraft c2state).2 = true ∧
    (∃ st2 : AppState,
      runPicks [0, 0, 0, 0] (initializeInteractiveDraft c2state).1 = some st2 ∧
      ∃ (newTeams : List Team) (st3 : AppState),
        finalizeDraftedTeams st2 = (st3, some 1) ∧
        st3.teams = c2state.teams ++ newTeams ∧
        newTeams.length = 1 ∧
        (∀ t ∈ newTeams, ∃ a b c d : Player, t.members = [a, b, c, d] ∧
          a ∈ c2state.groups.A ∧ b ∈ c2state.groups.B ∧ c ∈ c2state.groups.C ∧
          d ∈ c2state.groups.D) ∧
        List.Perm (newTeams.filterMap (fun t => t.members.get? 0) ++ st3.groups.A)
          c2state.groups.A ∧
        List.Perm (newTeams.filterMap (fun t => t.members.get? 1) ++ st3.groups.B)
          c2state.groups.B ∧
        List.Perm (newTeams.filterMap (fun t => t.members.get? 2) ++ st3.groups.C)
          c2state.groups.C ∧
        List.Perm (newTeams.filterMap (fun t => t.members.get? 3) ++ st3.groups.D)
          c2state.groups.D ∧
        st3.interactiveDraftState = none ∧
        st3.players = c2state.players ∧ st3.settings = c2state.settings ∧
        st3.holeAssignments = c2state.holeAssignments) ∧
    (∀ (stx : AppState) (sx : DraftState), stx.interactiveDraftState = some sx →
      sx.currentRoundIndex < 4 → finalizeDraftedTeams stx = (stx, none)) :=
  c2_draft_finalize c2state [0, 0, 0, 0] 1 (by decide) (by decide) (by decide) (by decide)

end BBB
